import Mathlib

/-!
GoogleProjectManager: project / step / person lifecycle.

A shallow embedding of `src/models/project_gs.js`, `src/models/step_gs.js`,
`src/models/resource_gs.js` and the constant tables of `src/utils_ui_gs.js`.

Conventions of the embedding.

* A JavaScript record is a Lean structure.  A field that the code can leave
  `null` / `undefined` is an `Option`.
* The argument object `data` of the create / update functions is a structure
  whose fields are all optional: `none` means that the key is absent.
* A time stamp (`createdAt`, `updatedAt`, the result of `new Date()`) is
  represented by its time value, an integer number of milliseconds.
* A stored date (`dueDate`, `startDate`) is a `DateValue`: no model validates
  it, so it is either a value that `new Date(v)` reads as a date or one whose
  time value is NaN; a falsy date is `none`.
* String-valued and array-valued fields hold strings and arrays, as the
  JSDoc of the models documents them.
* Host services (`Utilities.getUuid`, `new Date()`, `Session`, `CalendarApp`,
  `Logger`) are fields of `World`; stateful code threads the `World`.
* A function that can `throw` returns an `Except` together with the world it
  leaves behind.
-/

namespace GPM

/-! ## Constant tables (`src/utils_ui_gs.js`, lines 32-50) -/

namespace UI

/-- The constant `UI.PHASES`. -/
def PHASES : List String :=
  ["Development", "Pre-Production", "Production", "Post-Production", "Delivery"]

/-- The constant `UI.DEFAULT_STEPS`, an object keyed by phase name. -/
def DEFAULT_STEPS : List (String × List String) :=
  [ ("Development", ["Storyboard", "Brief"]),
    ("Pre-Production",
      ["Producer", "Director", "Line Producer", "Crew", "Casting", "Location",
       "Shot List", "Shooting Schedule"]),
    ("Production", ["Shooting Day(s)"]),
    ("Post-Production",
      ["First Rough Cut", "First Correction", "Second Correction", "Picture Lock"]),
    ("Delivery", ["Rights Ownership", "Deliverables"]) ]

/-- The constant `UI.STATUSES`. -/
def STATUSES : List String := ["Open", "In Progress", "Done"]

/-- The expression `UI.DEFAULT_STEPS[phase] || []`. -/
def defaultStepNames (phase : String) : List String :=
  (DEFAULT_STEPS.lookup phase).getD []

end UI

/-! ## Records -/

/-- A truthy date as the models store it (`@param {Date|string}`, never
validated): either a value that `new Date(v)` reads as a date, with its time
value in milliseconds, or a value that it does not, such as the string
`soon`. -/
inductive DateValue where
  | valid (time : Int)
  | invalid (text : String)
  deriving DecidableEq, Repr

/-- The time value of `new Date(v)`; `none` is NaN. -/
def DateValue.time : DateValue → Option Int
  | .valid t => some t
  | .invalid _ => none

/-- A project record as built by `createProject_`. -/
structure Project where
  id : String
  title : String
  status : String
  priority : String
  startDate : Option DateValue
  dueDate : Option DateValue
  producerId : Option String
  directorId : Option String
  lineProducerId : Option String
  createdAt : Int
  updatedAt : Int
  deriving DecidableEq, Repr

/-- A step record as built by `createStep_`.  `projectId` and `phase` are copied
from the caller without a default, so they can be undefined. -/
structure Step where
  id : String
  projectId : Option String
  phase : Option String
  name : String
  dueDate : Option DateValue
  assigneeIds : List String
  status : String
  notes : String
  linkedCalendarEventId : Option String
  linkedDriveFileIds : List String
  createdAt : Int
  updatedAt : Int
  deriving DecidableEq, Repr

/-- A person record as built by `createPerson_`. -/
structure Person where
  id : String
  name : String
  email : String
  role : String
  createdAt : Int
  deriving DecidableEq, Repr

/-- A link record; the source only uses its `id` and its project. -/
structure Link where
  id : String
  projectId : Option String
  deriving DecidableEq, Repr

/-- The `data` argument of `createProject_` / `updateProject_`: every key is
optional; a nullable key can be present with value `null` (`some none`). -/
structure ProjectData where
  id : Option String := none
  title : Option String := none
  status : Option String := none
  priority : Option String := none
  startDate : Option (Option DateValue) := none
  dueDate : Option (Option DateValue) := none
  producerId : Option (Option String) := none
  directorId : Option (Option String) := none
  lineProducerId : Option (Option String) := none
  createdAt : Option Int := none
  updatedAt : Option Int := none
  deriving DecidableEq, Repr

/-- The `data` argument of `createStep_` / `updateStep_`. -/
structure StepData where
  id : Option String := none
  projectId : Option String := none
  phase : Option String := none
  name : Option String := none
  dueDate : Option (Option DateValue) := none
  assigneeIds : Option (List String) := none
  status : Option String := none
  notes : Option String := none
  linkedCalendarEventId : Option (Option String) := none
  linkedDriveFileIds : Option (List String) := none
  createdAt : Option Int := none
  updatedAt : Option Int := none
  deriving DecidableEq, Repr

/-- The `data` argument of `createPerson_`. -/
structure PersonData where
  name : Option String := none
  email : Option String := none
  role : Option String := none
  deriving DecidableEq, Repr

/-! ## JavaScript operators used by the models -/

/-- The expression `v || d` for a string-valued key: an absent key and the
empty string are falsy. -/
def strOr (v : Option String) (d : String) : String :=
  match v with
  | some s => if s = "" then d else s
  | none => d

/-- The expression `v || null` for a nullable string key. -/
def strOrNull (v : Option (Option String)) : Option String :=
  match v with
  | some (some s) => if s = "" then none else some s
  | _ => none

/-- The expression `v || null` for a nullable date key (a `DateValue` is
truthy). -/
def dateOrNull (v : Option (Option DateValue)) : Option DateValue :=
  match v with
  | some (some d) => some d
  | _ => none

/-- The expression `v || []` for an array-valued key (an array is truthy). -/
def listOr (v : Option (List String)) : List String :=
  v.getD []

/-- Truthiness of a nullable string, as in `if (step.linkedCalendarEventId)`. -/
def truthy (v : Option String) : Bool :=
  match v with
  | some s => s != ""
  | none => false

/-! ## The world: storage and host services -/

/-- The state threaded through the operations: the four record tables of the
storage adapter, and the host services the models call. -/
structure World where
  projects : List Project
  steps : List Step
  people : List Person
  links : List Link
  /-- Results of successive `Utilities.getUuid()` calls. -/
  uuidSource : Nat → String
  uuidCalls : Nat
  /-- Results of successive `new Date()` calls, as time values. -/
  clock : Nat → Int
  clockCalls : Nat
  /-- Result of `Session.getActiveUser().getEmail()`. -/
  activeUserEmail : String
  /-- Whether `getEventById(id).deleteEvent()` throws for this event id. -/
  calendarFails : String → Bool
  /-- Calendar events deleted so far. -/
  deletedEvents : List String
  /-- Lines written with `Logger.log`. -/
  log : List String

/-- The function `generateId_` (`src/utils_ui_gs.js`, line 166). -/
def generateId_ (w : World) : String × World :=
  (w.uuidSource w.uuidCalls, { w with uuidCalls := w.uuidCalls + 1 })

/-- The expression `new Date()`. -/
def newDate (w : World) : Int × World :=
  (w.clock w.clockCalls, { w with clockCalls := w.clockCalls + 1 })

/-- The function `getCurrentUserEmail_` (`src/utils_ui_gs.js`, line 174). -/
def getCurrentUserEmail_ (w : World) : String :=
  w.activeUserEmail

/-! ## Storage adapter -/

namespace Storage

/-- Modelled from the spec: the storage adapter (`Storage`, not part of the
sources) is "generic get/save/delete operations keyed by entity type and id".
`lookup` is `get(type, id)` on one table. -/
def lookup {α : Type} (key : α → String) (id : String) (xs : List α) : Option α :=
  xs.find? (fun x => key x == id)

/-- Modelled from the spec: `save(type, record)` on one table, keyed by id: a
record stored under the same id is replaced in place, otherwise the record is
added at the end. -/
def upsert {α : Type} (key : α → String) (r : α) (xs : List α) : List α :=
  if xs.any (fun x => key x == key r) then
    xs.map (fun x => if key x == key r then r else x)
  else
    xs ++ [r]

/-- Modelled from the spec: `delete(type, id)` on one table. -/
def remove {α : Type} (key : α → String) (id : String) (xs : List α) : List α :=
  xs.filter (fun x => key x != id)

/-- Modelled from the spec: `Storage.getProject(id)`. -/
def getProject (w : World) (id : String) : Option Project :=
  lookup Project.id id w.projects

/-- Modelled from the spec: `Storage.saveProject(project)`. -/
def saveProject (p : Project) (w : World) : World :=
  { w with projects := upsert Project.id p w.projects }

/-- Modelled from the spec: `Storage.deleteProject(id)`. -/
def deleteProject (id : String) (w : World) : World :=
  { w with projects := remove Project.id id w.projects }

/-- Modelled from the spec: `Storage.getStep(id)`. -/
def getStep (w : World) (id : String) : Option Step :=
  lookup Step.id id w.steps

/-- Modelled from the spec: `Storage.getAllSteps()`. -/
def getAllSteps (w : World) : List Step :=
  w.steps

/-- Modelled from the spec: `Storage.getSteps(projectId)`, the list operation
filtered by owning project, in storage order. -/
def getSteps (w : World) (projectId : String) : List Step :=
  w.steps.filter (fun s => s.projectId == some projectId)

/-- Modelled from the spec: `Storage.saveStep(step)`. -/
def saveStep (s : Step) (w : World) : World :=
  { w with steps := upsert Step.id s w.steps }

/-- Modelled from the spec: `Storage.deleteStep(id)`. -/
def deleteStep (id : String) (w : World) : World :=
  { w with steps := remove Step.id id w.steps }

/-- Modelled from the spec: `Storage.getPeople()`. -/
def getPeople (w : World) : List Person :=
  w.people

/-- Modelled from the spec: `Storage.savePerson(person)`. -/
def savePerson (p : Person) (w : World) : World :=
  { w with people := upsert Person.id p w.people }

/-- Modelled from the spec: `Storage.getLinks(projectId)`. -/
def getLinks (w : World) (projectId : String) : List Link :=
  w.links.filter (fun l => l.projectId == some projectId)

/-- Modelled from the spec: `Storage.deleteLink(id)`. -/
def deleteLink (id : String) (w : World) : World :=
  { w with links := remove Link.id id w.links }

end Storage

/-! ## Step model (`src/models/step_gs.js`) -/

/-- The function `createStep_` (lines 10-28). -/
def createStep_ (data : StepData) (w : World) : Step × World :=
  let (id, w1) := generateId_ w
  let (created, w2) := newDate w1
  let (updated, w3) := newDate w2
  let step : Step :=
    { id := id
      projectId := data.projectId
      phase := data.phase
      name := strOr data.name "New Step"
      dueDate := dateOrNull data.dueDate
      assigneeIds := listOr data.assigneeIds
      status := strOr data.status "Open"
      notes := strOr data.notes ""
      linkedCalendarEventId := strOrNull data.linkedCalendarEventId
      linkedDriveFileIds := listOr data.linkedDriveFileIds
      createdAt := created
      updatedAt := updated }
  (step, Storage.saveStep step w3)

/-- The object literal `{...step, ...data, id: stepId, updatedAt: now}` of
`updateStep_` (lines 40-45). -/
def mergeStep (step : Step) (data : StepData) (stepId : String) (now : Int) : Step :=
  { id := stepId
    projectId := match data.projectId with
      | some v => some v
      | none => step.projectId
    phase := match data.phase with
      | some v => some v
      | none => step.phase
    name := data.name.getD step.name
    dueDate := data.dueDate.getD step.dueDate
    assigneeIds := data.assigneeIds.getD step.assigneeIds
    status := data.status.getD step.status
    notes := data.notes.getD step.notes
    linkedCalendarEventId := data.linkedCalendarEventId.getD step.linkedCalendarEventId
    linkedDriveFileIds := data.linkedDriveFileIds.getD step.linkedDriveFileIds
    createdAt := data.createdAt.getD step.createdAt
    updatedAt := now }

/-- The function `updateStep_` (`src/models/step_gs.js`, lines 36-49). -/
def updateStep_ (stepId : String) (data : StepData) (w : World) :
    Except String Step × World :=
  match Storage.getStep w stepId with
  | none => (.error "Step not found", w)
  | some step =>
    let (now, w1) := newDate w
    let updated := mergeStep step data stepId now
    (.ok updated, Storage.saveStep updated w1)

/-- The status computed by `toggleStepStatus_` (lines 80-83). -/
def nextStatus (status : String) : String :=
  if status = "Open" then "In Progress"
  else if status = "In Progress" then "Done"
  else "Open"

/-- The function `toggleStepStatus_` (lines 76-86). -/
def toggleStepStatus_ (stepId : String) (w : World) : Except String Step × World :=
  match Storage.getStep w stepId with
  | none => (.error "Step not found", w)
  | some step => updateStep_ stepId { status := some (nextStatus step.status) } w

/-- The function `assignPeopleToStep_` (lines 94-96). -/
def assignPeopleToStep_ (stepId : String) (personIds : List String) (w : World) :
    Except String Step × World :=
  updateStep_ stepId { assigneeIds := some personIds } w

/-- The function `addAssigneeToStep_` (lines 104-114). -/
def addAssigneeToStep_ (stepId personId : String) (w : World) :
    Except String Step × World :=
  match Storage.getStep w stepId with
  | none => (.error "Step not found", w)
  | some step =>
    let assigneeIds := step.assigneeIds
    let assigneeIds :=
      if !assigneeIds.contains personId then assigneeIds ++ [personId] else assigneeIds
    updateStep_ stepId { assigneeIds := some assigneeIds } w

/-- The function `removeAssigneeFromStep_` (lines 122-128). -/
def removeAssigneeFromStep_ (stepId personId : String) (w : World) :
    Except String Step × World :=
  match Storage.getStep w stepId with
  | none => (.error "Step not found", w)
  | some step =>
    let assigneeIds := step.assigneeIds.filter (fun id => id != personId)
    updateStep_ stepId { assigneeIds := some assigneeIds } w

/-- The comparator of `getMySteps_` (lines 186-190); `none` is NaN.  The
difference `new Date(a.dueDate) - new Date(b.dueDate)` is the difference of the
two time values, and NaN when one of them is NaN. -/
def dueDateCompare (a b : Step) : Option Int :=
  match a.dueDate with
  | none => some 1
  | some da =>
    match b.dueDate with
    | none => some (-1)
    | some db =>
      match da.time, db.time with
      | some ta, some tb => some (ta - tb)
      | _, _ => none

/-- The one test the array sort makes on the comparator: `comparefn(x, y) < 0`,
where a NaN result counts as `+0`. -/
def sortLess {α : Type} (cmp : α → α → Option Int) (x y : α) : Bool :=
  match cmp x y with
  | some v => decide (v < 0)
  | none => false

/-- The loop of the run detection: how many further elements continue the run
that ends in `previous`.  A descending run goes on while the current element is
below the previous one, an ascending run while it is not. -/
def runTail {α : Type} (cmp : α → α → Option Int) (descending : Bool) :
    α → List α → Nat
  | _, [] => 0
  | previous, current :: rest =>
    if sortLess cmp current previous == descending then
      runTail cmp descending current rest + 1
    else 0

/-- The run detection of the array sort: the longest run at the start of the
array, ascending or strictly descending as its first two elements decide, a
descending run being reversed in place; and the elements after the run. -/
def countAndMakeRun {α : Type} (cmp : α → α → Option Int) : List α → List α × List α
  | [] => ([], [])
  | [x] => ([x], [])
  | low :: high :: rest =>
    let descending := sortLess cmp high low
    let runLength := runTail cmp descending high rest + 2
    let run := (low :: high :: rest).take runLength
    (if descending then run.reverse else run, (low :: high :: rest).drop runLength)

/-- The binary search of the array sort for the place of `pivot` in the sorted
part, between `left` and `right`. -/
def insertionPoint {α : Type} (cmp : α → α → Option Int) (pivot : α) (sorted : List α) :
    Nat → Nat → Nat → Nat
  | 0, left, _ => left
  | fuel + 1, left, right =>
    if left < right then
      let mid := left + (right - left) / 2
      match sorted[mid]? with
      | some element =>
        if sortLess cmp pivot element then insertionPoint cmp pivot sorted fuel left mid
        else insertionPoint cmp pivot sorted fuel (mid + 1) right
      | none => left
    else left

/-- One step of the binary insertion: `pivot` enters the sorted part at the
place the binary search finds. -/
def binaryInsert {α : Type} (cmp : α → α → Option Int) (sorted : List α) (pivot : α) :
    List α :=
  let left := insertionPoint cmp pivot sorted sorted.length 0 sorted.length
  sorted.take left ++ pivot :: sorted.drop left

/-- The host builtin `Array.prototype.sort(comparefn)`, as the V8 engine sorts
an array of fewer than 64 elements: it detects the run at the start of the
array and enters each later element by binary insertion.  The comparator is
consulted only through `sortLess`.  (A longer array is cut into such runs,
which are merged; when `sortLess` is a strict weak order the result is the same
stable sort.) -/
def arraySort {α : Type} (cmp : α → α → Option Int) (xs : List α) : List α :=
  (countAndMakeRun cmp xs).2.foldl (binaryInsert cmp) (countAndMakeRun cmp xs).1

/-- The function `getMySteps_` (lines 173-193). -/
def getMySteps_ (projectId : Option String) (w : World) : List Step :=
  let userEmail := getCurrentUserEmail_ w
  match (Storage.getPeople w).find? (fun p => p.email == userEmail) with
  | none => []
  | some currentUser =>
    let steps :=
      if truthy projectId then Storage.getSteps w (projectId.getD "")
      else Storage.getAllSteps w
    let steps := steps.filter (fun step => step.assigneeIds.contains currentUser.id)
    arraySort dueDateCompare steps

/-- The filter predicate of `getOverdueSteps_` (lines 204-207). -/
def isOverdue (now : Int) (step : Step) : Bool :=
  match step.dueDate with
  | none => false
  | some due =>
    if step.status == "Done" then false
    else
      match due.time with
      | some t => decide (t < now)
      | none => false

/-- The function `getOverdueSteps_` (lines 200-208). -/
def getOverdueSteps_ (projectId : String) (w : World) : List Step × World :=
  let steps := Storage.getSteps w projectId
  let (now, w1) := newDate w
  (steps.filter (isOverdue now), w1)

/-! ## Project model (`src/models/project_gs.js`) -/

/-- The loop `stepNames.forEach(name => createStep_(...))` of `createProject_`
(lines 30-37) for one phase. -/
def createPhaseSteps (projectId phase : String) (w : World) : World :=
  (UI.defaultStepNames phase).foldl
    (fun w name =>
      (createStep_
        { projectId := some projectId, phase := some phase, name := some name,
          status := some "Open" } w).2)
    w

/-- The function `createProject_` (lines 10-41). -/
def createProject_ (data : ProjectData) (w : World) : Project × World :=
  let (id, w1) := generateId_ w
  let (created, w2) := newDate w1
  let (updated, w3) := newDate w2
  let project : Project :=
    { id := id
      title := strOr data.title "New Video Project"
      status := strOr data.status "Open"
      priority := strOr data.priority "Medium"
      startDate := dateOrNull data.startDate
      dueDate := dateOrNull data.dueDate
      producerId := strOrNull data.producerId
      directorId := strOrNull data.directorId
      lineProducerId := strOrNull data.lineProducerId
      createdAt := created
      updatedAt := updated }
  let w4 := Storage.saveProject project w3
  (project, UI.PHASES.foldl (fun w phase => createPhaseSteps project.id phase w) w4)

/-- The object literal `{...project, ...data, id: projectId, updatedAt: now}`
of `updateProject_` (lines 53-58). -/
def mergeProject (project : Project) (data : ProjectData) (projectId : String)
    (now : Int) : Project :=
  { id := projectId
    title := data.title.getD project.title
    status := data.status.getD project.status
    priority := data.priority.getD project.priority
    startDate := data.startDate.getD project.startDate
    dueDate := data.dueDate.getD project.dueDate
    producerId := data.producerId.getD project.producerId
    directorId := data.directorId.getD project.directorId
    lineProducerId := data.lineProducerId.getD project.lineProducerId
    createdAt := data.createdAt.getD project.createdAt
    updatedAt := now }

/-- The function `updateProject_` (`src/models/project_gs.js`, lines 49-62). -/
def updateProject_ (projectId : String) (data : ProjectData) (w : World) :
    Except String Project × World :=
  match Storage.getProject w projectId with
  | none => (.error "Project not found", w)
  | some project =>
    let (now, w1) := newDate w
    let updated := mergeProject project data projectId now
    (.ok updated, Storage.saveProject updated w1)

/-- The call `Logger.log(line)`. -/
def loggerLog (line : String) (w : World) : World :=
  { w with log := w.log ++ [line] }

/-- The call `CalendarApp.getDefaultCalendar().getEventById(id).deleteEvent()`,
which can throw. -/
def calendarDeleteEvent (eventId : String) (w : World) : Except String World :=
  if w.calendarFails eventId then .error "calendar failure"
  else .ok { w with deletedEvents := w.deletedEvents ++ [eventId] }

/-- The body of the first loop of `deleteProject_` (lines 71-80): the calendar
call sits in a `try` whose `catch` only logs. -/
def deleteLinkedEvent (w : World) (step : Step) : Except String World :=
  if truthy step.linkedCalendarEventId then
    match calendarDeleteEvent (step.linkedCalendarEventId.getD "") w with
    | .ok w1 => .ok w1
    | .error e => .ok (loggerLog ("Error deleting calendar event: " ++ e) w)
  else .ok w

/-- The function `deleteProject_` (lines 68-93). -/
def deleteProject_ (projectId : String) (w : World) : Except String World := do
  let steps := Storage.getSteps w projectId
  let w1 ← steps.foldlM deleteLinkedEvent w
  let links := Storage.getLinks w1 projectId
  let w2 := Storage.deleteProject projectId w1
  let w3 := steps.foldl (fun w step => Storage.deleteStep step.id w) w2
  let w4 := links.foldl (fun w link => Storage.deleteLink link.id w) w3
  return w4

/-! ## Numbers: the double-precision arithmetic of `getProjectStats_`

A JavaScript number is an IEEE 754 binary64 value.  The only non-integer
arithmetic of the models is `Math.round((stats.done / stats.total) * 100)`.
A non-negative finite double is represented exactly, as a fraction of two
naturals; division and multiplication round their exact result to 53
significant bits, to nearest, ties to even.  The exponent range is not
bounded, which is exact for the quotients and products of array lengths. -/

/-- Halving loop of `ilog2`. -/
def ilog2Aux : Nat → Nat → Nat
  | 0, _ => 0
  | fuel + 1, n => if 2 ≤ n then ilog2Aux fuel (n / 2) + 1 else 0

/-- The binary exponent of a positive natural: the largest `k` with `2 ^ k ≤ n`. -/
def ilog2 (n : Nat) : Nat :=
  ilog2Aux n n

/-- The integer nearest to `n / d`, ties to the even integer (`d` positive). -/
def roundHalfEven (n d : Nat) : Nat :=
  let q := n / d
  let r := n % d
  if 2 * r < d then q else if d < 2 * r then q + 1 else if q % 2 = 0 then q else q + 1

/-- A non-negative finite double, as the fraction `num / den`. -/
structure F64 where
  num : Nat
  den : Nat
  deriving DecidableEq, Repr

/-- The double nearest to the fraction `n / d` (`d` positive): with
`2 ^ e ≤ n / d < 2 ^ (e + 1)`, the fraction is scaled by `2 ^ (52 - e)`,
rounded to an integer significand of 53 bits, and scaled back. -/
def F64.ofFraction (n d : Nat) : F64 :=
  let ln := ilog2 n
  let ld := ilog2 d
  let adj := if d * 2 ^ ln ≤ n * 2 ^ ld then 0 else 1
  let up := 52 + ld + adj
  { num := roundHalfEven (n * 2 ^ up) (d * 2 ^ ln) * 2 ^ ln, den := 2 ^ up }

/-- A natural number as a double (exact below `2 ^ 53`). -/
def F64.ofNat (n : Nat) : F64 :=
  { num := n, den := 1 }

/-- The operator `/` on doubles (positive divisor). -/
def F64.div (a b : F64) : F64 :=
  F64.ofFraction (a.num * b.den) (a.den * b.num)

/-- The operator `*` on doubles. -/
def F64.mul (a b : F64) : F64 :=
  F64.ofFraction (a.num * b.num) (a.den * b.den)

/-- The rational value of a double. -/
def F64.toRat (x : F64) : ℚ :=
  (x.num : ℚ) / (x.den : ℚ)

/-- The function `Math.round` on a non-negative double: the nearest integer,
a half rounding up; it is exact. -/
def mathRound (x : F64) : Nat :=
  (2 * x.num + x.den) / (2 * x.den)

/-! ## Project statistics (`src/models/project_gs.js`, lines 100-134) -/

/-- An entry of `stats.byPhase`. -/
structure PhaseStats where
  total : Nat
  done : Nat
  deriving DecidableEq, Repr

/-- The object returned by `getProjectStats_`; `openCount` is its key `open`. -/
structure ProjectStats where
  total : Nat
  openCount : Nat
  inProgress : Nat
  done : Nat
  byPhase : List (String × PhaseStats)
  percentComplete : Nat
  deriving DecidableEq, Repr

/-- The statements `stats.byPhase[phase].total++` and, for a `Done` step,
`stats.byPhase[phase].done++` (lines 123-128); a phase that is not a key of
`byPhase` changes nothing. -/
def countPhase (byPhase : List (String × PhaseStats)) (step : Step) :
    List (String × PhaseStats) :=
  byPhase.map (fun entry =>
    if step.phase == some entry.1 then
      (entry.1,
        { total := entry.2.total + 1
          done := if step.status == "Done" then entry.2.done + 1 else entry.2.done })
    else entry)

/-- The body of the loop `steps.forEach(step => ...)` (lines 118-129). -/
def countStep (stats : ProjectStats) (step : Step) : ProjectStats :=
  let stats :=
    if step.status == "Open" then { stats with openCount := stats.openCount + 1 }
    else if step.status == "In Progress" then { stats with inProgress := stats.inProgress + 1 }
    else if step.status == "Done" then { stats with done := stats.done + 1 }
    else stats
  { stats with byPhase := countPhase stats.byPhase step }

/-- The expression `stats.total > 0 ? Math.round((stats.done / stats.total) * 100) : 0`
(line 131). -/
def percentComplete (done total : Nat) : Nat :=
  if total > 0 then
    mathRound (F64.mul (F64.div (F64.ofNat done) (F64.ofNat total)) (F64.ofNat 100))
  else 0

/-- The function `getProjectStats_` (lines 100-134). -/
def getProjectStats_ (projectId : String) (w : World) : ProjectStats :=
  let steps := Storage.getSteps w projectId
  let stats : ProjectStats :=
    { total := steps.length
      openCount := 0
      inProgress := 0
      done := 0
      byPhase := UI.PHASES.map (fun phase => (phase, { total := 0, done := 0 }))
      percentComplete := 0 }
  let stats := steps.foldl countStep stats
  { stats with percentComplete := percentComplete stats.done stats.total }

/-! ## Resource model (`src/models/resource_gs.js`) -/

/-- The function `createPerson_` (lines 10-21). -/
def createPerson_ (data : PersonData) (w : World) : Person × World :=
  let (id, w1) := generateId_ w
  let (created, w2) := newDate w1
  let person : Person :=
    { id := id
      name := strOr data.name ""
      email := strOr data.email ""
      role := strOr data.role ""
      createdAt := created }
  (person, Storage.savePerson person w2)

/-- The function `findOrCreatePerson_` (lines 57-66). -/
def findOrCreatePerson_ (email : String) (name : Option String) (w : World) :
    Person × World :=
  match (Storage.getPeople w).find? (fun p => p.email == email) with
  | some person => (person, w)
  | none => createPerson_ { email := some email, name := some (strOr name email) } w

/-! ## Vocabulary of the statements -/

/-- The identifiers of `Utilities.getUuid()` are unique: the source never
yields the same value twice, and no value it has yet to yield is the id of a
stored step. -/
def UuidFresh (w : World) : Prop :=
  Function.Injective w.uuidSource ∧
    ∀ n, w.uuidCalls ≤ n → ∀ s ∈ w.steps, s.id ≠ w.uuidSource n

/-- The fields of a step that `createProject_` fixes. -/
def Step.seed (s : Step) : Option String × Option String × String × String :=
  (s.projectId, s.phase, s.name, s.status)

/-- The (phase, name) pairs of the default table, in creation order. -/
def defaultPairs : List (String × String) :=
  UI.PHASES.flatMap (fun phase => (UI.defaultStepNames phase).map (fun name => (phase, name)))

/-- An identifier source for examples: the `n`-th identifier is `n + 1` letters. -/
def demoUuid (n : Nat) : String :=
  String.mk (List.replicate (n + 1) 'u')

/-- A stored step for examples. -/
def demoStep : Step :=
  { id := "s1", projectId := some "p1", phase := some "Production", name := "Shooting Day(s)",
    dueDate := some (.valid 1577836800000), assigneeIds := ["a"], status := "Open", notes := "",
    linkedCalendarEventId := some "ev1", linkedDriveFileIds := [], createdAt := 0,
    updatedAt := 0 }

/-- A world for examples: one project with one step and one link, and a
calendar that fails on every call. -/
def demoWorld : World :=
  { projects :=
      [{ id := "p1", title := "Short Film", status := "Open", priority := "Medium",
         startDate := none, dueDate := none, producerId := none, directorId := none,
         lineProducerId := none, createdAt := 0, updatedAt := 0 }]
    steps := [demoStep]
    people := [{ id := "a", name := "Ann", email := "a@x.com", role := "", createdAt := 0 }]
    links := [{ id := "l1", projectId := some "p1" }]
    uuidSource := demoUuid
    uuidCalls := 0
    clock := fun n => 1600000000000 + n
    clockCalls := 0
    activeUserEmail := "a@x.com"
    calendarFails := fun _ => true
    deletedEvents := []
    log := [] }

/-- A world whose only step has a status outside the three known values. -/
def blockedWorld : World :=
  { demoWorld with steps := [{ demoStep with status := "Blocked" }] }

/-- The dueDate of a step, when set, is a valid date. -/
def validDue (s : Step) : Bool :=
  match s.dueDate with
  | some d => d.time.isSome
  | none => true

/-- The sort key of a step with a valid or unset dueDate: its time value, and
the top element when it has no dueDate. -/
def dueKey (s : Step) : WithTop Int :=
  match s.dueDate with
  | some (.valid t) => (t : WithTop Int)
  | _ => ⊤

/-- A world for examples of `getMySteps_`: three steps assigned to the user,
stored with the undated step first and the later date before the earlier. -/
def myStepsWorld : World :=
  { demoWorld with
    steps :=
      [ { demoStep with id := "s1", dueDate := none },
        { demoStep with id := "s2", dueDate := some (.valid 200) },
        { demoStep with id := "s3", dueDate := some (.valid 100) },
        { demoStep with id := "s4", assigneeIds := ["b"] } ] }

/-- A world for examples of `getMySteps_`: four steps assigned to the user, two
of them with a dueDate that is no date. -/
def invalidDueWorld : World :=
  { demoWorld with
    steps :=
      [ { demoStep with id := "s1", dueDate := some (.valid 300) },
        { demoStep with id := "s2", dueDate := some (.invalid "soon") },
        { demoStep with id := "s3", dueDate := some (.valid 100) },
        { demoStep with id := "s4", dueDate := some (.invalid "soon") } ] }

/-- The tables of steps and links are keyed by id: no two stored steps and no
two stored links share an id. -/
def StoreKeyed (w : World) : Prop :=
  (w.steps.map Step.id).Nodup ∧ (w.links.map Link.id).Nodup

instance (w : World) : Decidable (StoreKeyed w) := by
  unfold StoreKeyed
  infer_instance

/-- A world for examples of `deleteProject_`: project `p1` has three steps, one
of them with a linked calendar event, and one link; project `p2` has one step
and one link.  Every calendar call fails. -/
def cascadeWorld : World :=
  { demoWorld with
    projects :=
      [ { id := "p1", title := "Short Film", status := "Open", priority := "Medium",
          startDate := none, dueDate := none, producerId := none, directorId := none,
          lineProducerId := none, createdAt := 0, updatedAt := 0 },
        { id := "p2", title := "Other", status := "Open", priority := "Medium",
          startDate := none, dueDate := none, producerId := none, directorId := none,
          lineProducerId := none, createdAt := 0, updatedAt := 0 } ]
    steps :=
      [ { demoStep with id := "s1" },
        { demoStep with id := "s2", linkedCalendarEventId := none },
        { demoStep with id := "s3", projectId := some "p2" },
        { demoStep with id := "s4", linkedCalendarEventId := none } ]
    links := [{ id := "l1", projectId := some "p1" }, { id := "l2", projectId := some "p2" }] }

/-- A world for examples of `getOverdueSteps_`: the current time is 1000; the
steps of `p1` are due before, exactly at and after it, due before it but
`Done`, and undated. -/
def overdueWorld : World :=
  { demoWorld with
    clock := fun _ => 1000
    steps :=
      [ { demoStep with id := "s1", dueDate := some (.valid 999) },
        { demoStep with id := "s2", dueDate := some (.valid 1000) },
        { demoStep with id := "s3", dueDate := some (.valid 1001) },
        { demoStep with id := "s4", dueDate := some (.valid 5), status := "Done" },
        { demoStep with id := "s5", dueDate := none },
        { demoStep with id := "s6", dueDate := some (.valid 7), status := "In Progress" },
        { demoStep with id := "s7", dueDate := some (.invalid "soon") } ] }

/-- A world for examples of `getProjectStats_`: project `p1` has 40 steps, of
which 23 are `Done`. -/
def statsWorld : World :=
  { demoWorld with
    steps :=
      List.replicate 23 { demoStep with status := "Done" } ++
        List.replicate 17 { demoStep with status := "Open" } }

/-- The percentage as the specification words it: `done * 100 / total` rounded to the nearest
integer, a half rounding up. -/
def exactPercent (done total : Nat) : Nat :=
  (2 * (done * 100) + total) / (2 * total)

/-- The assigneeIds of every stored step is a set: it holds no person id twice. -/
def AssigneesAreSets (w : World) : Prop :=
  ∀ s ∈ w.steps, s.assigneeIds.Nodup

instance (w : World) : Decidable (AssigneesAreSets w) := by
  unfold AssigneesAreSets
  infer_instance

/-! # Theorems -/

/-! ## Storage adapter -/

theorem Storage.upsert_of_fresh {α : Type} (key : α → String) (r : α) (xs : List α)
    (h : ∀ x ∈ xs, key x ≠ key r) : Storage.upsert key r xs = xs ++ [r] := by
  unfold Storage.upsert
  have hany : xs.any (fun x => key x == key r) = false := by
    rw [List.any_eq_false]
    intro x hx
    simpa using h x hx
  simp [hany]

theorem createStep_steps (data : StepData) (w : World) :
    (createStep_ data w).2.steps = Storage.upsert Step.id (createStep_ data w).1 w.steps := by
  simp [createStep_, generateId_, newDate, Storage.saveStep]

theorem createStep_id (data : StepData) (w : World) :
    (createStep_ data w).1.id = w.uuidSource w.uuidCalls := by
  simp [createStep_, generateId_, newDate]

theorem createStep_uuid (data : StepData) (w : World) :
    (createStep_ data w).2.uuidSource = w.uuidSource ∧
      (createStep_ data w).2.uuidCalls = w.uuidCalls + 1 := by
  simp [createStep_, generateId_, newDate, Storage.saveStep]

theorem createStep_seed (data : StepData) (w : World) :
    (createStep_ data w).1.seed =
      (data.projectId, data.phase, strOr data.name "New Step", strOr data.status "Open") := by
  simp [createStep_, generateId_, newDate, Step.seed]

theorem createStep_fresh (data : StepData) (w : World) (h : UuidFresh w) :
    (createStep_ data w).2.steps = w.steps ++ [(createStep_ data w).1] ∧
      UuidFresh (createStep_ data w).2 := by
  obtain ⟨hinj, hfr⟩ := h
  have hid := createStep_id data w
  have hsteps : (createStep_ data w).2.steps = w.steps ++ [(createStep_ data w).1] := by
    rw [createStep_steps]
    apply Storage.upsert_of_fresh
    intro x hx
    rw [hid]
    exact hfr _ (le_refl _) x hx
  obtain ⟨hsrc, hcalls⟩ := createStep_uuid data w
  refine ⟨hsteps, ?_, ?_⟩
  · rw [hsrc]; exact hinj
  · intro n hn s hs
    rw [hsrc]
    rw [hcalls] at hn
    rw [hsteps, List.mem_append, List.mem_singleton] at hs
    rcases hs with hs | hs
    · exact hfr n (by omega) s hs
    · rw [hs, hid]
      intro heq
      have := hinj heq
      omega

theorem createPhaseSteps_fresh (projectId phase : String) (names : List String) :
    ∀ w : World, UuidFresh w →
      ∃ created : List Step,
        (names.foldl
            (fun w name =>
              (createStep_
                { projectId := some projectId, phase := some phase, name := some name,
                  status := some "Open" } w).2) w).steps = w.steps ++ created ∧
          created.map Step.seed =
            names.map (fun name =>
              (some projectId, some phase, strOr (some name) "New Step", "Open")) ∧
          UuidFresh (names.foldl
            (fun w name =>
              (createStep_
                { projectId := some projectId, phase := some phase, name := some name,
                  status := some "Open" } w).2) w) := by
  induction names with
  | nil => intro w h; exact ⟨[], by simp, by simp, by simpa using h⟩
  | cons name rest ih =>
    intro w h
    obtain ⟨hs, hf⟩ := createStep_fresh
      { projectId := some projectId, phase := some phase, name := some name,
        status := some "Open" } w h
    obtain ⟨created, hc, hm, hfr⟩ := ih _ hf
    refine ⟨(createStep_
      { projectId := some projectId, phase := some phase, name := some name,
        status := some "Open" } w).1 :: created, ?_, ?_, ?_⟩
    · rw [List.foldl_cons, hc, hs]; simp
    · rw [List.map_cons, List.map_cons, hm, createStep_seed]; simp [strOr]
    · rw [List.foldl_cons]; exact hfr

theorem createPhases_fresh (projectId : String) (phases : List String) :
    ∀ w : World, UuidFresh w →
      ∃ created : List Step,
        (phases.foldl (fun w phase => createPhaseSteps projectId phase w) w).steps =
            w.steps ++ created ∧
          created.map Step.seed =
            (phases.flatMap (fun phase => (UI.defaultStepNames phase).map (fun name =>
              (some projectId, some phase, strOr (some name) "New Step", "Open")))) ∧
          UuidFresh (phases.foldl (fun w phase => createPhaseSteps projectId phase w) w) := by
  induction phases with
  | nil => intro w h; exact ⟨[], by simp, by simp, by simpa using h⟩
  | cons phase rest ih =>
    intro w h
    obtain ⟨c1, hc1, hm1, hf1⟩ :=
      createPhaseSteps_fresh projectId phase (UI.defaultStepNames phase) w h
    obtain ⟨c2, hc2, hm2, hf2⟩ := ih (createPhaseSteps projectId phase w) hf1
    refine ⟨c1 ++ c2, ?_, ?_, ?_⟩
    · rw [List.foldl_cons, hc2]
      unfold createPhaseSteps
      rw [hc1, List.append_assoc]
    · rw [List.map_append, hm1, hm2, List.flatMap_cons]
    · rw [List.foldl_cons]; exact hf2

/-- C1: when the UUID service yields unique identifiers, `createProject_` adds
exactly 17 steps to the stored steps (and changes no stored step): one for each
(phase, name) pair of `UI.PHASES` and `UI.DEFAULT_STEPS`, in table order, each
with `projectId` equal to the id of the returned project, that phase, that name
and status `Open`. -/
theorem createProject_creates_default_steps (data : ProjectData) (w : World)
    (h : UuidFresh w) :
    ∃ created : List Step,
      (createProject_ data w).2.steps = w.steps ++ created ∧
        created.length = 17 ∧
        created.map Step.seed =
          defaultPairs.map (fun pn =>
            (some (createProject_ data w).1.id, some pn.1, pn.2, "Open")) := by
  have hw : UuidFresh (Storage.saveProject (createProject_ data w).1
      (newDate (newDate (generateId_ w).2).2).2) := by
    obtain ⟨hinj, hfr⟩ := h
    refine ⟨hinj, ?_⟩
    intro n hn s hs
    exact hfr n (by simp [Storage.saveProject, newDate, generateId_] at hn; omega) s hs
  obtain ⟨created, hc, hm, -⟩ :=
    createPhases_fresh (createProject_ data w).1.id UI.PHASES _ hw
  have hm2 : created.map Step.seed =
      defaultPairs.map (fun pn =>
        (some (createProject_ data w).1.id, some pn.1, pn.2, "Open")) := by
    rw [hm]
    simp [defaultPairs, UI.PHASES, UI.defaultStepNames, UI.DEFAULT_STEPS, List.lookup, strOr]
  refine ⟨created, ?_, ?_, hm2⟩
  · exact hc
  · have hl := congrArg List.length hm2
    rw [List.length_map, List.length_map] at hl
    rw [hl]
    decide

theorem demoUuid_injective : Function.Injective demoUuid := by
  intro a b h
  unfold demoUuid at h
  have h2 := congrArg (fun s : String => s.data.length) h
  simp at h2
  exact h2

theorem demoWorld_fresh : UuidFresh demoWorld := by
  refine ⟨demoUuid_injective, ?_⟩
  intro n _ s hs
  simp [demoWorld] at hs
  subst hs
  intro h
  have h2 := congrArg (fun s : String => s.data.head?) h
  simp [demoStep, demoWorld, demoUuid, List.replicate_succ] at h2

/-- Witness of C1 on the example world. -/
theorem createProject_creates_default_steps_witness :
    ∃ created : List Step,
      (createProject_ { title := some "Short Film" } demoWorld).2.steps =
          demoWorld.steps ++ created ∧
        created.length = 17 ∧
        created.map Step.seed =
          defaultPairs.map (fun pn =>
            (some (createProject_ { title := some "Short Film" } demoWorld).1.id,
              some pn.1, pn.2, "Open")) :=
  createProject_creates_default_steps { title := some "Short Film" } demoWorld demoWorld_fresh

/-! ## Storage adapter: reading back -/

theorem Storage.lookup_map_replace {α : Type} (key : α → String) (r : α) (xs : List α) :
    Storage.lookup key (key r) (xs.map (fun x => if key x == key r then r else x)) =
      if xs.any (fun x => key x == key r) then some r else none := by
  unfold Storage.lookup
  induction xs with
  | nil => simp
  | cons x rest ih =>
    rw [List.map_cons, List.find?_cons, List.any_cons]
    by_cases hx : key x = key r
    · simp [hx]
    · have hb : (key x == key r) = false := by simpa using hx
      simp only [hb, Bool.false_eq_true, if_false, Bool.false_or]
      exact ih

theorem Storage.lookup_upsert_self {α : Type} (key : α → String) (r : α) (xs : List α) :
    Storage.lookup key (key r) (Storage.upsert key r xs) = some r := by
  unfold Storage.upsert
  by_cases hany : xs.any (fun x => key x == key r) = true
  · rw [if_pos hany, Storage.lookup_map_replace, if_pos hany]
  · rw [if_neg hany]
    unfold Storage.lookup
    rw [List.find?_append]
    have hnone : List.find? (fun x => key x == key r) xs = none := by
      rw [List.find?_eq_none]
      intro x hx hk
      exact hany (List.any_eq_true.mpr ⟨x, hx, hk⟩)
    simp [hnone]

theorem Storage.lookup_some_key {α : Type} (key : α → String) (id : String) (xs : List α)
    (r : α) (h : Storage.lookup key id xs = some r) : key r = id ∧ r ∈ xs := by
  unfold Storage.lookup at h
  have h1 := List.find?_some h
  have h2 := List.mem_of_find?_eq_some h
  exact ⟨by simpa using h1, h2⟩

theorem Storage.lookup_eq_none_iff {α : Type} (key : α → String) (id : String) (xs : List α) :
    Storage.lookup key id xs = none ↔ ∀ x ∈ xs, key x ≠ id := by
  unfold Storage.lookup
  rw [List.find?_eq_none]
  simp

/-! ## Step updates -/

theorem updateStep_ok (stepId : String) (data : StepData) (w : World) (step : Step)
    (h : Storage.getStep w stepId = some step) :
    updateStep_ stepId data w =
      (.ok (mergeStep step data stepId (w.clock w.clockCalls)),
        Storage.saveStep (mergeStep step data stepId (w.clock w.clockCalls)) (newDate w).2) := by
  simp [updateStep_, h, newDate]

theorem getStep_saveStep (s : Step) (w : World) :
    Storage.getStep (Storage.saveStep s w) s.id = some s := by
  simp only [Storage.getStep, Storage.saveStep]
  exact Storage.lookup_upsert_self Step.id s w.steps

theorem updateStep_stored (stepId : String) (data : StepData) (w : World) (step : Step)
    (h : Storage.getStep w stepId = some step) :
    ∃ w1, updateStep_ stepId data w =
        (.ok (mergeStep step data stepId (w.clock w.clockCalls)), w1) ∧
      Storage.getStep w1 stepId = some (mergeStep step data stepId (w.clock w.clockCalls)) := by
  refine ⟨_, updateStep_ok stepId data w step h, ?_⟩
  exact getStep_saveStep (mergeStep step data stepId (w.clock w.clockCalls)) (newDate w).2

/-- C2 (as stated, refuted): a stored step whose status is none of the three
known values is toggled to `Open`, not to `In Progress`. -/
theorem toggleStepStatus_unknown_counterexample :
    Storage.getStep blockedWorld "s1" = some { demoStep with status := "Blocked" } ∧
      ∃ s w1, toggleStepStatus_ "s1" blockedWorld = (.ok s, w1) ∧
        s.status = "Open" ∧ s.status ≠ "In Progress" := by
  refine ⟨by decide, _, _, rfl, by decide, by decide⟩

/-- C2 (amended): `toggleStepStatus_` succeeds on every stored step, and the
returned step, which is also the step stored afterwards, has its status set by
the table `Open` to `In Progress`, `In Progress` to `Done`, `Done` to `Open`,
and every other value to `Open`. -/
theorem toggleStepStatus_table (stepId : String) (w : World) (step : Step)
    (h : Storage.getStep w stepId = some step) :
    ∃ s w1, toggleStepStatus_ stepId w = (.ok s, w1) ∧
      Storage.getStep w1 stepId = some s ∧
      (step.status = "Open" → s.status = "In Progress") ∧
      (step.status = "In Progress" → s.status = "Done") ∧
      (step.status = "Done" → s.status = "Open") ∧
      (step.status ≠ "Open" → step.status ≠ "In Progress" → step.status ≠ "Done" →
        s.status = "Open") := by
  obtain ⟨w1, hok, hget⟩ :=
    updateStep_stored stepId { status := some (nextStatus step.status) } w step h
  refine ⟨_, w1, ?_, hget, ?_, ?_, ?_, ?_⟩
  · simp only [toggleStepStatus_, h]
    exact hok
  · intro hs; simp [mergeStep, nextStatus, hs]
  · intro hs; simp [mergeStep, nextStatus, hs]
  · intro hs; simp [mergeStep, nextStatus, hs]
  · intro h1 h2 _; simp [mergeStep, nextStatus, h1, h2]

/-- Witness of C2 (amended) on the example world. -/
theorem toggleStepStatus_table_witness :
    ∃ s w1, toggleStepStatus_ "s1" demoWorld = (.ok s, w1) ∧
      Storage.getStep w1 "s1" = some s ∧
      (demoStep.status = "Open" → s.status = "In Progress") ∧
      (demoStep.status = "In Progress" → s.status = "Done") ∧
      (demoStep.status = "Done" → s.status = "Open") ∧
      (demoStep.status ≠ "Open" → demoStep.status ≠ "In Progress" →
        demoStep.status ≠ "Done" → s.status = "Open") :=
  toggleStepStatus_table "s1" demoWorld demoStep (by decide)

/-! ## The array sort and `getMySteps_` -/

theorem countAndMakeRun_perm {α : Type} (cmp : α → α → Option Int) (xs : List α) :
    ((countAndMakeRun cmp xs).1 ++ (countAndMakeRun cmp xs).2).Perm xs := by
  match xs with
  | [] => exact List.Perm.refl _
  | [x] => exact List.Perm.refl _
  | low :: high :: rest =>
    simp only [countAndMakeRun]
    have htd := List.take_append_drop (runTail cmp (sortLess cmp high low) high rest + 2)
      (low :: high :: rest)
    split
    · refine List.Perm.trans ?_ (List.Perm.of_eq htd)
      exact List.Perm.append_right _ (List.reverse_perm _)
    · exact List.Perm.of_eq htd

theorem binaryInsert_perm {α : Type} (cmp : α → α → Option Int) (sorted : List α)
    (pivot : α) : (binaryInsert cmp sorted pivot).Perm (pivot :: sorted) := by
  unfold binaryInsert
  refine List.perm_middle.trans ?_
  rw [List.take_append_drop]

theorem foldl_binaryInsert_perm {α : Type} (cmp : α → α → Option Int) (rest : List α) :
    ∀ acc : List α, (rest.foldl (binaryInsert cmp) acc).Perm (acc ++ rest) := by
  induction rest with
  | nil => intro acc; simp
  | cons x rest ih =>
    intro acc
    rw [List.foldl_cons]
    refine (ih _).trans ?_
    refine ((binaryInsert_perm cmp acc x).append_right rest).trans ?_
    exact List.perm_middle.symm

theorem arraySort_perm {α : Type} (cmp : α → α → Option Int) (xs : List α) :
    (arraySort cmp xs).Perm xs := by
  unfold arraySort
  exact (foldl_binaryInsert_perm cmp _ _).trans (countAndMakeRun_perm cmp xs)

theorem runTail_chain {α K : Type} [LinearOrder K] (cmp : α → α → Option Int) (key : α → K)
    (P : α → Prop)
    (hP : ∀ x y, P x → P y → (sortLess cmp x y = true ↔ key x < key y))
    (descending : Bool) (rest : List α) :
    ∀ previous : α, P previous → (∀ x ∈ rest, P x) →
      List.Chain (fun p c => if descending then key c < key p else key p ≤ key c) previous
        (rest.take (runTail cmp descending previous rest)) := by
  induction rest with
  | nil => intro previous _ _; simp
  | cons current rest ih =>
    intro previous hprev hrest
    have hcur : P current := hrest current (List.mem_cons_self _ _)
    have hrest2 : ∀ x ∈ rest, P x := fun x hx => hrest x (List.mem_cons_of_mem _ hx)
    unfold runTail
    by_cases hc : (sortLess cmp current previous == descending) = true
    · rw [if_pos hc, List.take_succ_cons]
      refine List.Chain.cons ?_ (ih current hcur hrest2)
      have hiff := hP current previous hcur hprev
      have hc2 : sortLess cmp current previous = descending := by simpa using hc
      cases hd : descending with
      | true =>
        rw [hd] at hc2
        simpa using hiff.mp hc2
      | false =>
        rw [hd] at hc2
        have hnot : ¬ key current < key previous := by
          intro hlt
          rw [hiff.mpr hlt] at hc2
          cases hc2
        simpa using le_of_not_lt hnot
    · rw [if_neg hc]
      simp

theorem countAndMakeRun_sorted {α K : Type} [LinearOrder K] (cmp : α → α → Option Int)
    (key : α → K) (P : α → Prop)
    (hP : ∀ x y, P x → P y → (sortLess cmp x y = true ↔ key x < key y))
    (xs : List α) (hxs : ∀ x ∈ xs, P x) :
    (countAndMakeRun cmp xs).1.Pairwise (fun a b => key a ≤ key b) := by
  match xs with
  | [] => simp [countAndMakeRun]
  | [x] => simp [countAndMakeRun]
  | low :: high :: rest =>
    have hlow : P low := hxs low (List.mem_cons_self _ _)
    have hhigh : P high := hxs high (List.mem_cons_of_mem _ (List.mem_cons_self _ _))
    have hrest : ∀ x ∈ rest, P x := fun x hx =>
      hxs x (List.mem_cons_of_mem _ (List.mem_cons_of_mem _ hx))
    have hchain := runTail_chain cmp key P hP (sortLess cmp high low) rest high hhigh hrest
    have hiff := hP high low hhigh hlow
    simp only [countAndMakeRun, List.take_succ_cons]
    cases hd : sortLess cmp high low with
    | true =>
      rw [hd] at hchain
      simp only [if_true] at hchain ⊢
      have hfirst : key high < key low := hiff.mp hd
      have hc : List.Chain' (fun p c => key c < key p)
          (low :: high :: rest.take (runTail cmp true high rest)) :=
        List.Chain.cons hfirst hchain
      have hrev : List.Chain' (fun a b => key a < key b)
          (low :: high :: rest.take (runTail cmp true high rest)).reverse := by
        rw [List.chain'_reverse]
        exact hc
      have hle : List.Chain' (fun a b => key a ≤ key b)
          (low :: high :: rest.take (runTail cmp true high rest)).reverse :=
        hrev.imp (fun _ _ h => le_of_lt h)
      rw [← List.chain'_map key] at hle
      have hp := List.chain'_iff_pairwise.mp hle
      exact List.pairwise_map.mp hp
    | false =>
      rw [hd] at hchain
      simp only [Bool.false_eq_true, if_false] at hchain ⊢
      have hfirst : key low ≤ key high := by
        apply le_of_not_lt
        intro hlt
        rw [hiff.mpr hlt] at hd
        cases hd
      have hc : List.Chain' (fun a b => key a ≤ key b)
          (low :: high :: rest.take (runTail cmp false high rest)) :=
        List.Chain.cons hfirst hchain
      rw [← List.chain'_map key] at hc
      have hp := List.chain'_iff_pairwise.mp hc
      exact List.pairwise_map.mp hp


theorem insertionPoint_spec {α K : Type} [LinearOrder K] (cmp : α → α → Option Int)
    (key : α → K) (pivot : α) (sorted : List α)
    (hs : sorted.Pairwise (fun a b => key a ≤ key b))
    (hag : ∀ y ∈ sorted, (sortLess cmp pivot y = true ↔ key pivot < key y)) :
    ∀ fuel left right : Nat, left ≤ right → right ≤ sorted.length → right - left ≤ fuel →
      (∀ i (hi : i < sorted.length), i < left → key sorted[i] ≤ key pivot) →
      (∀ i (hi : i < sorted.length), right ≤ i → key pivot < key sorted[i]) →
      (∀ i (hi : i < sorted.length),
          i < insertionPoint cmp pivot sorted fuel left right → key sorted[i] ≤ key pivot) ∧
        (∀ i (hi : i < sorted.length),
          insertionPoint cmp pivot sorted fuel left right ≤ i → key pivot < key sorted[i]) := by
  intro fuel
  induction fuel with
  | zero =>
    intro left right hlr _ hfuel hleft hright
    have heq : left = right := by omega
    simp only [insertionPoint]
    exact ⟨hleft, fun i hi hle => hright i hi (by omega)⟩
  | succ fuel ih =>
    intro left right hlr hlen hfuel hleft hright
    unfold insertionPoint
    by_cases hlt : left < right
    · rw [if_pos hlt]
      have hmid : left + (right - left) / 2 < sorted.length := by omega
      simp only [List.getElem?_eq_getElem hmid]
      have hmem : sorted[left + (right - left) / 2] ∈ sorted := List.getElem_mem hmid
      have hiff := hag _ hmem
      by_cases hless : sortLess cmp pivot sorted[left + (right - left) / 2] = true
      · rw [if_pos hless]
        apply ih left (left + (right - left) / 2) (by omega) (by omega) (by omega) hleft
        intro i hi hge
        have h1 : key pivot < key sorted[left + (right - left) / 2] := hiff.mp hless
        rcases Nat.eq_or_lt_of_le hge with heq | hgt
        · simpa [← heq] using h1
        · exact lt_of_lt_of_le h1 (List.pairwise_iff_getElem.mp hs _ _ hmid hi hgt)
      · rw [if_neg hless]
        have h1 : key sorted[left + (right - left) / 2] ≤ key pivot :=
          le_of_not_lt (fun h => hless (hiff.mpr h))
        apply ih (left + (right - left) / 2 + 1) right (by omega) hlen (by omega) _ hright
        intro i hi hlti
        rcases Nat.eq_or_lt_of_le (Nat.le_of_lt_succ hlti) with heq | hlt2
        · simpa [heq] using h1
        · exact le_trans (List.pairwise_iff_getElem.mp hs _ _ hi hmid hlt2) h1
    · rw [if_neg hlt]
      have heq : left = right := by omega
      exact ⟨hleft, fun i hi hle => hright i hi (by omega)⟩

theorem binaryInsert_sorted {α K : Type} [LinearOrder K] (cmp : α → α → Option Int)
    (key : α → K) (pivot : α) (sorted : List α)
    (hs : sorted.Pairwise (fun a b => key a ≤ key b))
    (hag : ∀ y ∈ sorted, (sortLess cmp pivot y = true ↔ key pivot < key y)) :
    (binaryInsert cmp sorted pivot).Pairwise (fun a b => key a ≤ key b) := by
  obtain ⟨hbefore, hafter⟩ := insertionPoint_spec cmp key pivot sorted hs hag sorted.length 0
    sorted.length (Nat.zero_le _) (le_refl _) (by omega)
    (fun i _ h => absurd h (Nat.not_lt_zero i))
    (fun i hi h => absurd hi (by omega))
  unfold binaryInsert
  generalize insertionPoint cmp pivot sorted sorted.length 0 sorted.length = p at hbefore hafter
  have htake : ∀ a ∈ sorted.take p, key a ≤ key pivot := by
    intro a ha
    rw [List.mem_take_iff_getElem] at ha
    obtain ⟨i, hm, hget⟩ := ha
    rw [← hget]
    exact hbefore i (by omega) (by omega)
  have hdrop : ∀ b ∈ sorted.drop p, key pivot < key b := by
    intro b hb
    rw [List.mem_drop_iff_getElem] at hb
    obtain ⟨i, hm, hget⟩ := hb
    rw [← hget]
    exact hafter (p + i) (by omega) (by omega)
  rw [List.pairwise_append]
  refine ⟨hs.sublist (List.take_sublist _ _), ?_, ?_⟩
  · rw [List.pairwise_cons]
    exact ⟨fun b hb => le_of_lt (hdrop b hb), hs.sublist (List.drop_sublist _ _)⟩
  · intro a ha b hb
    rw [List.mem_cons] at hb
    rcases hb with hb | hb
    · rw [hb]; exact htake a ha
    · exact le_trans (htake a ha) (le_of_lt (hdrop b hb))

theorem foldl_binaryInsert_sorted {α K : Type} [LinearOrder K] (cmp : α → α → Option Int)
    (key : α → K) (P : α → Prop)
    (hP : ∀ x y, P x → P y → (sortLess cmp x y = true ↔ key x < key y))
    (rest : List α) :
    ∀ acc : List α, acc.Pairwise (fun a b => key a ≤ key b) → (∀ x ∈ acc, P x) →
      (∀ x ∈ rest, P x) →
      (rest.foldl (binaryInsert cmp) acc).Pairwise (fun a b => key a ≤ key b) := by
  induction rest with
  | nil => intro acc hs _ _; simpa using hs
  | cons pivot rest ih =>
    intro acc hs hacc hrest
    have hpivot : P pivot := hrest pivot (List.mem_cons_self _ _)
    rw [List.foldl_cons]
    apply ih
    · exact binaryInsert_sorted cmp key pivot acc hs (fun y hy => hP pivot y hpivot (hacc y hy))
    · intro x hx
      have hx2 := (binaryInsert_perm cmp acc pivot).subset hx
      rw [List.mem_cons] at hx2
      rcases hx2 with hx2 | hx2
      · rw [hx2]; exact hpivot
      · exact hacc x hx2
    · exact fun x hx => hrest x (List.mem_cons_of_mem _ hx)

theorem arraySort_sorted {α K : Type} [LinearOrder K] (cmp : α → α → Option Int)
    (key : α → K) (P : α → Prop)
    (hP : ∀ x y, P x → P y → (sortLess cmp x y = true ↔ key x < key y))
    (xs : List α) (hxs : ∀ x ∈ xs, P x) :
    (arraySort cmp xs).Pairwise (fun a b => key a ≤ key b) := by
  have hperm := countAndMakeRun_perm cmp xs
  unfold arraySort
  apply foldl_binaryInsert_sorted cmp key P hP
  · exact countAndMakeRun_sorted cmp key P hP xs hxs
  · exact fun x hx => hxs x (hperm.subset (List.mem_append_left _ hx))
  · exact fun x hx => hxs x (hperm.subset (List.mem_append_right _ hx))

theorem sortLess_dueDateCompare (x y : Step) (hx : validDue x = true)
    (hy : validDue y = true) :
    sortLess dueDateCompare x y = true ↔ dueKey x < dueKey y := by
  unfold validDue at hx hy
  unfold sortLess dueDateCompare dueKey
  cases hdx : x.dueDate with
  | none => simp
  | some dx =>
    cases dx with
    | invalid text => simp [hdx, DateValue.time] at hx
    | valid tx =>
      cases hdy : y.dueDate with
      | none => simp [DateValue.time]
      | some dy =>
        cases dy with
        | invalid text => simp [hdy, DateValue.time] at hy
        | valid ty => simp [DateValue.time]

/-- C3 (as stated, refuted): the user resolves to a stored person and the four
stored steps are assigned to that person; two of them have a dueDate that is
no date, so the comparator returns NaN against them and the sort leaves the
array as it is: the step due at 300 stays before the step due at 100. -/
theorem getMySteps_invalid_date_counterexample :
    (Storage.getPeople invalidDueWorld).find?
        (fun p => p.email == getCurrentUserEmail_ invalidDueWorld) =
      some { id := "a", name := "Ann", email := "a@x.com", role := "", createdAt := 0 } ∧
    (getMySteps_ none invalidDueWorld).map (fun s => (s.id, s.dueDate)) =
      [ ("s1", some (.valid 300)), ("s2", some (.invalid "soon")),
        ("s3", some (.valid 100)), ("s4", some (.invalid "soon")) ] ∧
    ¬ (getMySteps_ none invalidDueWorld).Pairwise
        (fun a b => ∀ ta tb, a.dueDate = some (.valid ta) → b.dueDate = some (.valid tb) →
          ta ≤ tb) := by
  refine ⟨by decide, by decide, ?_⟩
  have hres : getMySteps_ none invalidDueWorld = invalidDueWorld.steps := by decide
  rw [hres]
  intro hp
  have h := List.rel_of_pairwise_cons hp
    (show { demoStep with id := "s3", dueDate := some (DateValue.valid 100) } ∈ _ from by decide)
  have h2 := h 300 100 rfl rfl
  omega

/-- C3 (amended): when the current user resolves to the stored person `user`,
`getMySteps_` returns a permutation of the steps in scope (those of the given
project, or all steps) whose assigneeIds contain `user.id`; and when every
dueDate of these steps is a valid date, no step without a dueDate is before a
step with a dueDate in the result, and the steps with a dueDate are in
ascending dueDate order. -/
theorem getMySteps_sorted (projectId : Option String) (w : World) (user : Person)
    (h : (Storage.getPeople w).find? (fun p => p.email == getCurrentUserEmail_ w) =
      some user) :
    (getMySteps_ projectId w).Perm
        ((if truthy projectId then Storage.getSteps w (projectId.getD "")
          else Storage.getAllSteps w).filter
            (fun step => step.assigneeIds.contains user.id)) ∧
      ((∀ step ∈ (if truthy projectId then Storage.getSteps w (projectId.getD "")
            else Storage.getAllSteps w).filter
              (fun step => step.assigneeIds.contains user.id), validDue step = true) →
        (getMySteps_ projectId w).Pairwise
            (fun a b => a.dueDate = none → b.dueDate = none) ∧
          (getMySteps_ projectId w).Pairwise
            (fun a b => ∀ ta tb, a.dueDate = some (.valid ta) →
              b.dueDate = some (.valid tb) → ta ≤ tb)) := by
  have hdef : getMySteps_ projectId w =
      arraySort dueDateCompare
        ((if truthy projectId then Storage.getSteps w (projectId.getD "")
          else Storage.getAllSteps w).filter
            (fun step => step.assigneeIds.contains user.id)) := by
    simp only [getMySteps_, h]
  rw [hdef]
  refine ⟨arraySort_perm _ _, ?_⟩
  intro hvalid
  have hsorted := arraySort_sorted dueDateCompare dueKey (fun s => validDue s = true)
    sortLess_dueDateCompare _ hvalid
  constructor
  · refine hsorted.imp_of_mem ?_
    intro a b _ hb hab ha
    have hbv := hvalid b ((arraySort_perm _ _).subset hb)
    unfold dueKey at hab
    unfold validDue at hbv
    cases hdb : b.dueDate with
    | none => rfl
    | some db =>
      cases db with
      | invalid text => simp [hdb, DateValue.time] at hbv
      | valid tb => simp [ha, hdb] at hab
  · refine hsorted.imp ?_
    intro a b hab ta tb ha hb
    unfold dueKey at hab
    simpa [ha, hb] using hab

/-- Witness of C3 (amended): the user of the example world resolves to a stored
person, and the dueDate of each of that person's steps is a valid date or
unset. -/
theorem getMySteps_sorted_witness :
    (getMySteps_ none myStepsWorld).Perm
        ((if truthy none then Storage.getSteps myStepsWorld ((none : Option String).getD "")
          else Storage.getAllSteps myStepsWorld).filter
            (fun step => step.assigneeIds.contains "a")) ∧
      (getMySteps_ none myStepsWorld).Pairwise
        (fun a b => a.dueDate = none → b.dueDate = none) ∧
      (getMySteps_ none myStepsWorld).Pairwise
        (fun a b => ∀ ta tb, a.dueDate = some (.valid ta) → b.dueDate = some (.valid tb) →
          ta ≤ tb) :=
  have hthm := getMySteps_sorted none myStepsWorld
    { id := "a", name := "Ann", email := "a@x.com", role := "", createdAt := 0 } (by decide)
  ⟨hthm.1, hthm.2 (by decide)⟩

theorem getMySteps_example :
    (getMySteps_ none myStepsWorld).map Step.id = ["s3", "s2", "s1"] := by
  decide
/-! ## Cascading delete -/

theorem deleteLinkedEvent_ok (w : World) (step : Step) :
    ∃ w1, deleteLinkedEvent w step = .ok w1 ∧ w1.projects = w.projects ∧
      w1.steps = w.steps ∧ w1.links = w.links := by
  unfold deleteLinkedEvent
  by_cases ht : truthy step.linkedCalendarEventId = true
  · rw [if_pos ht]
    unfold calendarDeleteEvent
    by_cases hf : w.calendarFails (step.linkedCalendarEventId.getD "") = true
    · rw [if_pos hf]
      exact ⟨_, rfl, rfl, rfl, rfl⟩
    · rw [if_neg hf]
      exact ⟨_, rfl, rfl, rfl, rfl⟩
  · rw [if_neg ht]
    exact ⟨w, rfl, rfl, rfl, rfl⟩

theorem foldlM_deleteLinkedEvent_ok (l : List Step) :
    ∀ w : World, ∃ w1, l.foldlM deleteLinkedEvent w = .ok w1 ∧ w1.projects = w.projects ∧
      w1.steps = w.steps ∧ w1.links = w.links := by
  induction l with
  | nil => intro w; exact ⟨w, rfl, rfl, rfl, rfl⟩
  | cons step rest ih =>
    intro w
    obtain ⟨w1, h1, hp1, hs1, hl1⟩ := deleteLinkedEvent_ok w step
    obtain ⟨w2, h2, hp2, hs2, hl2⟩ := ih w1
    refine ⟨w2, ?_, hp2.trans hp1, hs2.trans hs1, hl2.trans hl1⟩
    rw [List.foldlM_cons, h1]
    exact h2

theorem foldl_deleteStep (l : List Step) :
    ∀ w : World,
      (l.foldl (fun w step => Storage.deleteStep step.id w) w).steps =
          w.steps.filter (fun s => !(l.map Step.id).contains s.id) ∧
        (l.foldl (fun w step => Storage.deleteStep step.id w) w).projects = w.projects ∧
        (l.foldl (fun w step => Storage.deleteStep step.id w) w).links = w.links := by
  induction l with
  | nil => intro w; simp
  | cons step rest ih =>
    intro w
    obtain ⟨h1, h2, h3⟩ := ih (Storage.deleteStep step.id w)
    rw [List.foldl_cons]
    refine ⟨?_, h2, h3⟩
    rw [h1]
    simp only [Storage.deleteStep, Storage.remove, List.filter_filter]
    apply List.filter_congr
    intro s _
    simp only [List.map_cons, List.contains_cons, bne, Bool.not_or]
    rw [Bool.and_comm]

theorem foldl_deleteLink (l : List Link) :
    ∀ w : World,
      (l.foldl (fun w link => Storage.deleteLink link.id w) w).links =
          w.links.filter (fun s => !(l.map Link.id).contains s.id) ∧
        (l.foldl (fun w link => Storage.deleteLink link.id w) w).projects = w.projects ∧
        (l.foldl (fun w link => Storage.deleteLink link.id w) w).steps = w.steps := by
  induction l with
  | nil => intro w; simp
  | cons link rest ih =>
    intro w
    obtain ⟨h1, h2, h3⟩ := ih (Storage.deleteLink link.id w)
    rw [List.foldl_cons]
    refine ⟨?_, h2, h3⟩
    rw [h1]
    simp only [Storage.deleteLink, Storage.remove, List.filter_filter]
    apply List.filter_congr
    intro s _
    simp only [List.map_cons, List.contains_cons, bne, Bool.not_or]
    rw [Bool.and_comm]

theorem filter_ids_of_nodup {α : Type} (key : α → String) (p : α → Bool) (xs : List α)
    (h : (xs.map key).Nodup) :
    xs.filter (fun x => !((xs.filter p).map key).contains (key x)) =
      xs.filter (fun x => !p x) := by
  apply List.filter_congr
  intro x hx
  by_cases hp : p x = true
  · have hmem : key x ∈ (xs.filter p).map key :=
      List.mem_map.mpr ⟨x, List.mem_filter.mpr ⟨hx, hp⟩, rfl⟩
    simp [hp, hmem]
  · have hnot : key x ∉ (xs.filter p).map key := by
      intro hmem
      obtain ⟨y, hy, hk⟩ := List.mem_map.mp hmem
      obtain ⟨hy1, hy2⟩ := List.mem_filter.mp hy
      have hxy : y = x := List.inj_on_of_nodup_map h hy1 hx hk
      rw [hxy] at hy2
      exact hp hy2
    simp [hp, hnot]

theorem deleteProject_result (projectId : String) (w : World) :
    ∃ w1, deleteProject_ projectId w = .ok w1 ∧
      w1.projects = w.projects.filter (fun p => p.id != projectId) ∧
      w1.steps = w.steps.filter (fun s =>
        !((w.steps.filter (fun s => s.projectId == some projectId)).map Step.id).contains s.id) ∧
      w1.links = w.links.filter (fun l =>
        !((w.links.filter (fun l => l.projectId == some projectId)).map Link.id).contains l.id) := by
  obtain ⟨w1, h1, hp1, hs1, hl1⟩ :=
    foldlM_deleteLinkedEvent_ok (Storage.getSteps w projectId) w
  obtain ⟨a1, a2, a3⟩ := foldl_deleteStep (Storage.getSteps w projectId)
    (Storage.deleteProject projectId w1)
  obtain ⟨b1, b2, b3⟩ := foldl_deleteLink (Storage.getLinks w1 projectId)
    ((Storage.getSteps w projectId).foldl (fun w step => Storage.deleteStep step.id w)
      (Storage.deleteProject projectId w1))
  refine ⟨(Storage.getLinks w1 projectId).foldl (fun w link => Storage.deleteLink link.id w)
    ((Storage.getSteps w projectId).foldl (fun w step => Storage.deleteStep step.id w)
      (Storage.deleteProject projectId w1)), ?_, ?_, ?_, ?_⟩
  · unfold deleteProject_
    simp only [h1, bind, Except.bind, pure, Except.pure]
  · rw [b2, a2]
    simp [Storage.deleteProject, Storage.remove, hp1]
  · rw [b3, a1]
    simp [Storage.deleteProject, Storage.getSteps, hs1]
  · rw [b1, a3]
    simp [Storage.deleteProject, Storage.getLinks, hl1]

/-- C4: on a store keyed by id, `deleteProject_` returns without raising,
whatever the calendar does (each call may fail), and afterwards the stored
projects are those with another id, the stored steps are those of other
projects, and the stored links are those of other projects, each table in its
previous order and with unchanged records. -/
theorem deleteProject_cascades (projectId : String) (w : World) (hkeys : StoreKeyed w) :
    ∃ w1, deleteProject_ projectId w = .ok w1 ∧
      (∀ p ∈ w1.projects, p.id ≠ projectId) ∧
      (∀ s ∈ w.steps, s.projectId = some projectId → s ∉ w1.steps) ∧
      (∀ l ∈ w.links, l.projectId = some projectId → l ∉ w1.links) ∧
      w1.projects = w.projects.filter (fun p => p.id != projectId) ∧
      w1.steps = w.steps.filter (fun s => !(s.projectId == some projectId)) ∧
      w1.links = w.links.filter (fun l => !(l.projectId == some projectId)) := by
  obtain ⟨w1, hok, hp, hs, hl⟩ := deleteProject_result projectId w
  rw [filter_ids_of_nodup Step.id (fun s => s.projectId == some projectId) w.steps hkeys.1] at hs
  rw [filter_ids_of_nodup Link.id (fun l => l.projectId == some projectId) w.links hkeys.2] at hl
  refine ⟨w1, hok, ?_, ?_, ?_, hp, hs, hl⟩
  · intro p hmem
    rw [hp, List.mem_filter] at hmem
    simpa using hmem.2
  · intro s _ hproj hmem
    rw [hs, List.mem_filter] at hmem
    simp [hproj] at hmem
  · intro l _ hproj hmem
    rw [hl, List.mem_filter] at hmem
    simp [hproj] at hmem

/-- Witness of C4: the example store is keyed by id, its calendar fails on
every call, and project `p1` has three steps, one with a linked event. -/
theorem deleteProject_cascades_witness :
    StoreKeyed cascadeWorld ∧
      ∃ w1, deleteProject_ "p1" cascadeWorld = .ok w1 ∧
        (∀ p ∈ w1.projects, p.id ≠ "p1") ∧
        (∀ s ∈ cascadeWorld.steps, s.projectId = some "p1" → s ∉ w1.steps) ∧
        (∀ l ∈ cascadeWorld.links, l.projectId = some "p1" → l ∉ w1.links) ∧
        w1.projects = cascadeWorld.projects.filter (fun p => p.id != "p1") ∧
        w1.steps = cascadeWorld.steps.filter (fun s => !(s.projectId == some "p1")) ∧
        w1.links = cascadeWorld.links.filter (fun l => !(l.projectId == some "p1")) :=
  ⟨by decide, deleteProject_cascades "p1" cascadeWorld (by decide)⟩

theorem deleteProject_example :
    ∃ w1, deleteProject_ "p1" cascadeWorld = .ok w1 ∧
      w1.projects.map Project.id = ["p2"] ∧ w1.steps.map Step.id = ["s3"] ∧
      w1.links.map Link.id = ["l2"] ∧
      w1.log = ["Error deleting calendar event: calendar failure"] :=
  ⟨_, rfl, by decide, by decide, by decide, by decide⟩

/-! ## Overdue steps -/

/-- C5: `getOverdueSteps_` returns exactly the steps of the project, in storage
order, whose dueDate is set and strictly before the current time and whose
status is not `Done`; no returned step has status `Done`, and no returned step
has a dueDate equal to the current time.  (A dueDate that is no date is never
before the current time.) -/
theorem getOverdueSteps_exact (projectId : String) (w : World) :
    (getOverdueSteps_ projectId w).1 =
        (Storage.getSteps w projectId).filter (fun s =>
          match s.dueDate with
          | some (.valid due) => decide (due < w.clock w.clockCalls ∧ s.status ≠ "Done")
          | _ => false) ∧
      (∀ s ∈ (getOverdueSteps_ projectId w).1, s.status ≠ "Done") ∧
      (∀ s ∈ (getOverdueSteps_ projectId w).1,
        s.dueDate ≠ some (.valid (w.clock w.clockCalls))) := by
  have hpred : ∀ s : Step, isOverdue (w.clock w.clockCalls) s =
      (match s.dueDate with
        | some (.valid due) => decide (due < w.clock w.clockCalls ∧ s.status ≠ "Done")
        | _ => false) := by
    intro s
    unfold isOverdue
    cases hd : s.dueDate with
    | none => rfl
    | some due =>
      cases due with
      | valid t =>
        by_cases hs : s.status = "Done"
        · simp [hs, DateValue.time]
        · simp [hs, DateValue.time]
      | invalid text =>
        by_cases hs : s.status = "Done"
        · simp [hs, DateValue.time]
        · simp [hs, DateValue.time]
  have hres : (getOverdueSteps_ projectId w).1 =
      (Storage.getSteps w projectId).filter (isOverdue (w.clock w.clockCalls)) := by
    simp [getOverdueSteps_, newDate]
  refine ⟨?_, ?_, ?_⟩
  · rw [hres]
    exact List.filter_congr (fun s _ => hpred s)
  · intro s hs
    rw [hres, List.mem_filter, hpred] at hs
    cases hd : s.dueDate with
    | none => simp [hd] at hs
    | some due =>
      cases due with
      | valid t =>
        simp only [hd, decide_eq_true_eq] at hs
        exact hs.2.2
      | invalid text => simp [hd] at hs
  · intro s hs
    rw [hres, List.mem_filter, hpred] at hs
    cases hd : s.dueDate with
    | none => simp
    | some due =>
      cases due with
      | valid t =>
        simp only [hd, decide_eq_true_eq] at hs
        intro heq
        have := hs.2.1
        simp only [Option.some.injEq, DateValue.valid.injEq] at heq
        omega
      | invalid text => simp

theorem getOverdueSteps_example :
    (getOverdueSteps_ "p1" overdueWorld).1.map Step.id = ["s1", "s6"] := by
  decide

/-! ## Double-precision arithmetic -/

theorem ilog2Aux_spec : ∀ fuel n : Nat, n ≤ fuel → n ≠ 0 →
    2 ^ ilog2Aux fuel n ≤ n ∧ n < 2 ^ (ilog2Aux fuel n + 1) := by
  intro fuel
  induction fuel with
  | zero => intro n h0 hn; omega
  | succ fuel ih =>
    intro n hle hn
    unfold ilog2Aux
    by_cases h2 : 2 ≤ n
    · rw [if_pos h2]
      obtain ⟨h1, h3⟩ := ih (n / 2) (by omega) (by omega)
      constructor
      · rw [pow_succ]; omega
      · rw [pow_succ]; omega
    · rw [if_neg h2]
      constructor <;> simp <;> omega

theorem ilog2_le (n : Nat) (hn : n ≠ 0) : 2 ^ ilog2 n ≤ n :=
  (ilog2Aux_spec n n (le_refl n) hn).1

theorem lt_ilog2 (n : Nat) (hn : n ≠ 0) : n < 2 ^ (ilog2 n + 1) :=
  (ilog2Aux_spec n n (le_refl n) hn).2

theorem roundHalfEven_near (n d : Nat) (hd : 0 < d) :
    2 * n ≤ 2 * (roundHalfEven n d * d) + d ∧ 2 * (roundHalfEven n d * d) ≤ 2 * n + d := by
  have hdm := Nat.div_add_mod n d
  have hmod := Nat.mod_lt n hd
  have hmul : (n / d + 1) * d = d * (n / d) + d := by ring
  have hmul2 : (n / d) * d = d * (n / d) := by ring
  unfold roundHalfEven
  simp only
  split_ifs <;> simp only [hmul, hmul2] <;> omega

theorem ofFraction_scale (n d : Nat) (hn : 0 < n) (hd : 0 < d) :
    d * 2 ^ ilog2 n ≤
      n * 2 ^ (ilog2 d + (if d * 2 ^ ilog2 n ≤ n * 2 ^ ilog2 d then 0 else 1)) := by
  split_ifs with h
  · simpa using h
  · have h1 := ilog2_le n (by omega)
    have h2 := lt_ilog2 d (by omega)
    calc d * 2 ^ ilog2 n ≤ 2 ^ (ilog2 d + 1) * n :=
          Nat.mul_le_mul (le_of_lt h2) h1
      _ = n * 2 ^ (ilog2 d + 1) := by ring

theorem ofFraction_den_pos (n d : Nat) : 0 < (F64.ofFraction n d).den := by
  simp [F64.ofFraction]

theorem ofFraction_approx (n d : Nat) (hn : 0 < n) (hd : 0 < d) :
    |(F64.ofFraction n d).toRat - (n : ℚ) / d| ≤ (n : ℚ) / d / 2 ^ 53 := by
  have hscale := ofFraction_scale n d hn hd
  generalize hadj : (if d * 2 ^ ilog2 n ≤ n * 2 ^ ilog2 d then 0 else 1) = adj at hscale
  have hD : 0 < d * 2 ^ ilog2 n := Nat.mul_pos hd (by positivity)
  obtain ⟨hr1, hr2⟩ :=
    roundHalfEven_near (n * 2 ^ (52 + ilog2 d + adj)) (d * 2 ^ ilog2 n) hD
  generalize hR : roundHalfEven (n * 2 ^ (52 + ilog2 d + adj)) (d * 2 ^ ilog2 n) = R at hr1 hr2
  have hval : (F64.ofFraction n d).toRat =
      ((R : ℚ) * 2 ^ ilog2 n) / 2 ^ (52 + ilog2 d + adj) := by
    simp only [F64.toRat, F64.ofFraction, hadj, hR]
    push_cast
    rfl
  rw [hval]
  have hdq : (0 : ℚ) < d := by exact_mod_cast hd
  have hU : (0 : ℚ) < 2 ^ (52 + ilog2 d + adj) := by positivity
  have q1 : (2 * ((n : ℚ) * 2 ^ (52 + ilog2 d + adj)) ≤
      2 * ((R : ℚ) * ((d : ℚ) * 2 ^ ilog2 n)) + (d : ℚ) * 2 ^ ilog2 n) := by exact_mod_cast hr1
  have q2 : (2 * ((R : ℚ) * ((d : ℚ) * 2 ^ ilog2 n)) ≤
      2 * ((n : ℚ) * 2 ^ (52 + ilog2 d + adj)) + (d : ℚ) * 2 ^ ilog2 n) := by exact_mod_cast hr2
  have q3 : ((d : ℚ) * 2 ^ ilog2 n ≤ (n : ℚ) * 2 ^ (ilog2 d + adj)) := by exact_mod_cast hscale
  have hpow : (2 : ℚ) ^ (52 + ilog2 d + adj) = 2 ^ 52 * 2 ^ (ilog2 d + adj) := by
    rw [add_assoc, pow_add]
  have e1 : ((R : ℚ) * 2 ^ ilog2 n) / 2 ^ (52 + ilog2 d + adj) - (n : ℚ) / d =
      ((R : ℚ) * ((d : ℚ) * 2 ^ ilog2 n) - (n : ℚ) * 2 ^ (52 + ilog2 d + adj)) /
        (2 ^ (52 + ilog2 d + adj) * d) := by
    field_simp
    ring
  have e2 : (n : ℚ) / d / 2 ^ 53 =
      ((n : ℚ) * 2 ^ (ilog2 d + adj) / 2) / (2 ^ (52 + ilog2 d + adj) * d) := by
    rw [hpow]
    field_simp
    ring
  rw [e1, e2, abs_div, abs_of_pos (mul_pos hU hdq)]
  apply div_le_div_of_nonneg_right _ (le_of_lt (mul_pos hU hdq))
  rw [abs_le]
  constructor <;> linarith

theorem mathRound_floor (x : F64) (hden : 0 < x.den) :
    (mathRound x : ℚ) ≤ x.toRat + 1 / 2 ∧ x.toRat + 1 / 2 < (mathRound x : ℚ) + 1 := by
  have h2 : 0 < 2 * x.den := by omega
  have hdm := Nat.div_add_mod (2 * x.num + x.den) (2 * x.den)
  have hmod := Nat.mod_lt (2 * x.num + x.den) h2
  have hq : (0 : ℚ) < x.den := by exact_mod_cast hden
  have e : x.toRat + 1 / 2 = ((2 * x.num + x.den : ℕ) : ℚ) / ((2 * x.den : ℕ) : ℚ) := by
    unfold F64.toRat
    push_cast
    field_simp
    ring
  have hlow : (mathRound x) * (2 * x.den) ≤ 2 * x.num + x.den := by
    unfold mathRound
    exact Nat.div_mul_le_self _ _
  have hhigh : 2 * x.num + x.den < (mathRound x + 1) * (2 * x.den) := by
    unfold mathRound
    have : ((2 * x.num + x.den) / (2 * x.den) + 1) * (2 * x.den) =
        2 * x.den * ((2 * x.num + x.den) / (2 * x.den)) + 2 * x.den := by ring
    omega
  have hpos : (0 : ℚ) < ((2 * x.den : ℕ) : ℚ) := by exact_mod_cast h2
  rw [e]
  constructor
  · rw [le_div_iff₀ hpos]
    exact_mod_cast hlow
  · rw [div_lt_iff₀ hpos]
    exact_mod_cast hhigh

theorem product_approx (a b : Nat) (ha : 0 < a) (hab : a ≤ b) :
    0 < (F64.mul (F64.div (F64.ofNat a) (F64.ofNat b)) (F64.ofNat 100)).den ∧
      |(F64.mul (F64.div (F64.ofNat a) (F64.ofNat b)) (F64.ofNat 100)).toRat -
          100 * ((a : ℚ) / b)| ≤ 201 / 2 ^ 53 := by
  have hb : 0 < b := by omega
  have hy := ofFraction_approx (a * 1) (1 * b) (by omega) (by omega)
  simp only [Nat.mul_one, Nat.one_mul] at hy
  have hbq : (0 : ℚ) < b := by exact_mod_cast hb
  have haq : (0 : ℚ) < a := by exact_mod_cast ha
  have hx0 : (0 : ℚ) < (a : ℚ) / b := div_pos haq hbq
  have hx1 : (a : ℚ) / b ≤ 1 := by
    rw [div_le_one hbq]
    exact_mod_cast hab
  have hyden : 0 < (F64.ofFraction a b).den := ofFraction_den_pos a b
  have hynum : 0 < (F64.ofFraction a b).num := by
    rcases Nat.eq_zero_or_pos (F64.ofFraction a b).num with h0 | hpos
    · exfalso
      have hzero : (F64.ofFraction a b).toRat = 0 := by
        unfold F64.toRat
        rw [h0]
        simp
      rw [hzero, zero_sub, abs_neg, abs_of_pos hx0] at hy
      have : (a : ℚ) / b / 2 ^ 53 < (a : ℚ) / b := by
        apply div_lt_self hx0
        norm_num
      linarith
    · exact hpos
  have hz := ofFraction_approx ((F64.ofFraction a b).num * 100) ((F64.ofFraction a b).den * 1)
    (by omega) (by omega)
  have hyz : (((F64.ofFraction a b).num * 100 : ℕ) : ℚ) / (((F64.ofFraction a b).den * 1 : ℕ) : ℚ)
      = 100 * (F64.ofFraction a b).toRat := by
    unfold F64.toRat
    push_cast
    ring
  rw [hyz] at hz
  refine ⟨ofFraction_den_pos _ _, ?_⟩
  have hdef : F64.mul (F64.div (F64.ofNat a) (F64.ofNat b)) (F64.ofNat 100) =
      F64.ofFraction ((F64.ofFraction a b).num * 100) ((F64.ofFraction a b).den * 1) := by
    simp [F64.mul, F64.div, F64.ofNat]
  rw [hdef]
  rw [abs_le] at hy hz ⊢
  obtain ⟨hy1, hy2⟩ := hy
  obtain ⟨hz1, hz2⟩ := hz
  constructor <;> norm_num at hy1 hy2 hz1 hz2 ⊢ <;> linarith

theorem ofFraction_zero_num (d : Nat) (hd : 0 < d) : (F64.ofFraction 0 d).num = 0 := by
  have hD : 0 < d * 2 ^ ilog2 0 := Nat.mul_pos hd (by positivity)
  have h : roundHalfEven 0 (d * 2 ^ ilog2 0) = 0 := by
    simp [roundHalfEven, hD]
  simp [F64.ofFraction, h]

theorem percentComplete_zero_done (b : Nat) : percentComplete 0 b = 0 := by
  unfold percentComplete
  split_ifs with hb
  · have h1 : (F64.div (F64.ofNat 0) (F64.ofNat b)).num = 0 := by
      simp only [F64.div, F64.ofNat, Nat.mul_one, Nat.one_mul]
      exact ofFraction_zero_num b hb
    have h2 : (F64.mul (F64.div (F64.ofNat 0) (F64.ofNat b)) (F64.ofNat 100)).num = 0 := by
      simp only [F64.mul, h1, Nat.zero_mul]
      exact ofFraction_zero_num _ (by
        simp only [F64.ofNat, Nat.mul_one]
        exact ofFraction_den_pos _ _)
    have h3 : 0 < (F64.mul (F64.div (F64.ofNat 0) (F64.ofNat b)) (F64.ofNat 100)).den :=
      ofFraction_den_pos _ _
    unfold mathRound
    rw [h2]
    apply Nat.div_eq_of_lt
    omega
  · rfl

theorem percentComplete_near (a b : Nat) (hab : a ≤ b) (hb : b < 2 ^ 32) :
    percentComplete a b ≤ 100 ∧ percentComplete a b ≤ exactPercent a b ∧
      exactPercent a b ≤ percentComplete a b + 1 ∧
      ((2 * (a * 100) + b) % (2 * b) ≠ 0 → percentComplete a b = exactPercent a b) := by
  rcases Nat.eq_zero_or_pos a with ha | ha
  · subst ha
    rw [percentComplete_zero_done]
    have hE : exactPercent 0 b = 0 := by
      unfold exactPercent
      rcases Nat.eq_zero_or_pos b with hb0 | hb0
      · subst hb0; rfl
      · apply Nat.div_eq_of_lt; omega
    rw [hE]
    simp
  · have hbpos : 0 < b := by omega
    obtain ⟨hden, happrox⟩ := product_approx a b ha hab
    obtain ⟨hlo, hhi⟩ :=
      mathRound_floor (F64.mul (F64.div (F64.ofNat a) (F64.ofNat b)) (F64.ofNat 100)) hden
    have hP : percentComplete a b =
        mathRound (F64.mul (F64.div (F64.ofNat a) (F64.ofNat b)) (F64.ofNat 100)) := by
      unfold percentComplete
      rw [if_pos hbpos]
    rw [← hP] at hlo hhi
    generalize percentComplete a b = P at hlo hhi ⊢
    generalize (F64.mul (F64.div (F64.ofNat a) (F64.ofNat b)) (F64.ofNat 100)).toRat = Z
      at hlo hhi happrox
    rw [abs_le] at happrox
    obtain ⟨hz1, hz2⟩ := happrox
    have h2b : 0 < 2 * b := by omega
    have hdm := Nat.div_add_mod (2 * (a * 100) + b) (2 * b)
    have hmod := Nat.mod_lt (2 * (a * 100) + b) h2b
    have hEdef : exactPercent a b = (2 * (a * 100) + b) / (2 * b) := rfl
    rw [← hEdef] at hdm
    generalize exactPercent a b = E at hdm ⊢
    generalize hr : (2 * (a * 100) + b) % (2 * b) = r at hdm hmod ⊢
    have hbq : (0 : ℚ) < b := by exact_mod_cast hbpos
    have hb32 : (b : ℚ) < 2 ^ 32 := by exact_mod_cast hb
    have haq : (a : ℚ) ≤ b := by exact_mod_cast hab
    have hx1 : (a : ℚ) / b ≤ 1 := by
      rw [div_le_one hbq]; exact haq
    have hu : 100 * ((a : ℚ) / b) + 1 / 2 = E + (r : ℚ) / (2 * b) := by
      have hq : (2 * (b : ℚ)) * E + r = 2 * (a * 100) + b := by exact_mod_cast hdm
      have hsum : (E : ℚ) + (r : ℚ) / (2 * b) = (2 * (b : ℚ) * E + r) / (2 * b) := by
        field_simp
        ring
      rw [hsum, hq]
      field_simp
      ring
    have ht : (201 : ℚ) / 2 ^ 53 < 1 / (2 * b) := by
      rw [div_lt_div_iff₀ (by positivity) (by positivity)]
      have h53 : (2 : ℚ) ^ 53 = 2 ^ 32 * 2 ^ 21 := by norm_num
      have h21 : (402 : ℚ) < 2 ^ 21 := by norm_num
      have hb0 : (0 : ℚ) < 2 ^ 32 := by positivity
      rw [h53]
      nlinarith
    have hf0 : (0 : ℚ) ≤ (r : ℚ) / (2 * b) := by positivity
    have hf1 : (r : ℚ) / (2 * b) ≤ 1 - 1 / (2 * b) := by
      have hrq : (r : ℚ) + 1 ≤ 2 * b := by exact_mod_cast hmod
      rw [div_le_iff₀ (by positivity)]
      field_simp
      linarith
    have hf2 : r ≠ 0 → 1 / (2 * (b : ℚ)) ≤ (r : ℚ) / (2 * b) := by
      intro hr0
      have hrq : (1 : ℚ) ≤ r := by exact_mod_cast Nat.one_le_iff_ne_zero.mpr hr0
      apply div_le_div_of_nonneg_right hrq
      positivity
    have hδ : (201 : ℚ) / 2 ^ 53 < 1 / 2 := by norm_num
    refine ⟨?_, ?_, ?_, ?_⟩
    · have : (P : ℚ) < 101 := by linarith
      have : P < 101 := by exact_mod_cast this
      omega
    · have : (P : ℚ) < E + 1 := by linarith
      have : P < E + 1 := by exact_mod_cast this
      omega
    · have : (E : ℚ) < P + 2 := by linarith
      have : E < P + 2 := by exact_mod_cast this
      omega
    · intro hr0
      have h3 := hf2 hr0
      have h4 : (E : ℚ) < P + 1 := by linarith
      have h5 : E < P + 1 := by exact_mod_cast h4
      have h6 : (P : ℚ) < E + 1 := by linarith
      have h7 : P < E + 1 := by exact_mod_cast h6
      omega


/-! ## Project statistics -/

theorem foldl_countStep (l : List Step) :
    ∀ st : ProjectStats,
      (l.foldl countStep st).total = st.total ∧
        (l.foldl countStep st).done =
          st.done + l.countP (fun s => s.status == "Done") := by
  induction l with
  | nil => intro st; simp
  | cons step rest ih =>
    intro st
    obtain ⟨h1, h2⟩ := ih (countStep st step)
    rw [List.foldl_cons, h1, h2]
    have ht : (countStep st step).total = st.total := by
      unfold countStep
      simp only
      split_ifs <;> rfl
    have hd : (countStep st step).done =
        st.done + (if step.status == "Done" then 1 else 0) := by
      unfold countStep
      by_cases hdone : step.status = "Done"
      · simp [hdone]
      · by_cases ho : step.status = "Open"
        · simp [ho]
        · by_cases hi : step.status = "In Progress"
          · simp [hi]
          · simp [hdone, ho, hi]
    refine ⟨ht, ?_⟩
    rw [hd, List.countP_cons]
    omega

theorem getProjectStats_counts (projectId : String) (w : World) :
    (getProjectStats_ projectId w).total = (Storage.getSteps w projectId).length ∧
      (getProjectStats_ projectId w).done =
        (Storage.getSteps w projectId).countP (fun s => s.status == "Done") ∧
      (getProjectStats_ projectId w).percentComplete =
        percentComplete ((Storage.getSteps w projectId).countP (fun s => s.status == "Done"))
          (Storage.getSteps w projectId).length := by
  obtain ⟨h1, h2⟩ := foldl_countStep (Storage.getSteps w projectId)
    { total := (Storage.getSteps w projectId).length
      openCount := 0
      inProgress := 0
      done := 0
      byPhase := UI.PHASES.map (fun phase => (phase, { total := 0, done := 0 }))
      percentComplete := 0 }
  simp only [Nat.zero_add] at h1 h2
  refine ⟨?_, ?_, ?_⟩
  · simp only [getProjectStats_]; exact h1
  · simp only [getProjectStats_]; exact h2
  · simp only [getProjectStats_]; rw [h1, h2]

/-- C6 (as stated, refuted): for a project with 40 steps of which 23 are
`Done`, `done * 100 / total` is 57.5, which rounds to 58, but
`getProjectStats_` returns 57: the double nearest to 23 / 40 is below 0.575 and
its product with 100 is below 57.5. -/
theorem getProjectStats_half_counterexample :
    (getProjectStats_ "p1" statsWorld).total = 40 ∧
      (getProjectStats_ "p1" statsWorld).done = 23 ∧
      (getProjectStats_ "p1" statsWorld).percentComplete = 57 ∧
      exactPercent 23 40 = 58 := by
  decide

/-- C6 (amended): for a project with fewer than `2 ^ 32` steps (the bound of a
JavaScript array), `getProjectStats_` returns percentComplete 0 when the
project has no steps; the result is always between 0 and 100; and it is
`done * 100 / total` rounded to the nearest integer, a half rounding up, except
that when `done * 100 / total` is exactly half-way between two integers the
result can be the lower one. -/
theorem getProjectStats_percentComplete (projectId : String) (w : World)
    (hlen : (Storage.getSteps w projectId).length < 2 ^ 32) :
    ((Storage.getSteps w projectId) = [] →
        (getProjectStats_ projectId w).percentComplete = 0) ∧
      (getProjectStats_ projectId w).percentComplete ≤ 100 ∧
      ((getProjectStats_ projectId w).percentComplete =
          exactPercent ((Storage.getSteps w projectId).countP (fun s => s.status == "Done"))
            (Storage.getSteps w projectId).length ∨
        ((getProjectStats_ projectId w).percentComplete + 1 =
            exactPercent ((Storage.getSteps w projectId).countP (fun s => s.status == "Done"))
              (Storage.getSteps w projectId).length ∧
          (2 * ((Storage.getSteps w projectId).countP (fun s => s.status == "Done") * 100) +
              (Storage.getSteps w projectId).length) %
            (2 * (Storage.getSteps w projectId).length) = 0)) := by
  obtain ⟨-, -, hpc⟩ := getProjectStats_counts projectId w
  obtain ⟨h100, hle, hge, hexact⟩ :=
    percentComplete_near ((Storage.getSteps w projectId).countP (fun s => s.status == "Done"))
      (Storage.getSteps w projectId).length (List.countP_le_length _) hlen
  rw [hpc]
  refine ⟨?_, h100, ?_⟩
  · intro hnil
    rw [hnil]
    rfl
  · by_cases hr : (2 * ((Storage.getSteps w projectId).countP (fun s => s.status == "Done") * 100) +
        (Storage.getSteps w projectId).length) % (2 * (Storage.getSteps w projectId).length) = 0
    · rcases Nat.lt_or_ge
          (percentComplete ((Storage.getSteps w projectId).countP (fun s => s.status == "Done"))
            (Storage.getSteps w projectId).length)
          (exactPercent ((Storage.getSteps w projectId).countP (fun s => s.status == "Done"))
            (Storage.getSteps w projectId).length) with hlt | hge2
      · right
        exact ⟨by omega, hr⟩
      · left
        omega
    · left
      exact hexact hr

/-- Witness of C6 (amended): the example project has 40 steps. -/
theorem getProjectStats_percentComplete_witness :
    ((Storage.getSteps statsWorld "p1") = [] →
        (getProjectStats_ "p1" statsWorld).percentComplete = 0) ∧
      (getProjectStats_ "p1" statsWorld).percentComplete ≤ 100 ∧
      ((getProjectStats_ "p1" statsWorld).percentComplete =
          exactPercent ((Storage.getSteps statsWorld "p1").countP (fun s => s.status == "Done"))
            (Storage.getSteps statsWorld "p1").length ∨
        ((getProjectStats_ "p1" statsWorld).percentComplete + 1 =
            exactPercent ((Storage.getSteps statsWorld "p1").countP (fun s => s.status == "Done"))
              (Storage.getSteps statsWorld "p1").length ∧
          (2 * ((Storage.getSteps statsWorld "p1").countP (fun s => s.status == "Done") * 100) +
              (Storage.getSteps statsWorld "p1").length) %
            (2 * (Storage.getSteps statsWorld "p1").length) = 0)) :=
  getProjectStats_percentComplete "p1" statsWorld (by decide)

theorem getProjectStats_empty_example :
    (getProjectStats_ "none" statsWorld).percentComplete = 0 ∧
      (getProjectStats_ "none" statsWorld).total = 0 := by
  decide

/-! ## Find or create a person -/

theorem Storage.mem_upsert {α : Type} (key : α → String) (r x : α) (xs : List α)
    (h : x ∈ Storage.upsert key r xs) : x = r ∨ x ∈ xs := by
  unfold Storage.upsert at h
  split at h
  · rw [List.mem_map] at h
    obtain ⟨y, hy, hxy⟩ := h
    by_cases hk : (key y == key r) = true
    · rw [if_pos hk] at hxy; exact Or.inl hxy.symm
    · rw [if_neg hk] at hxy; rw [← hxy]; exact Or.inr hy
  · rw [List.mem_append, List.mem_singleton] at h
    exact h.symm

theorem Storage.length_upsert_le {α : Type} (key : α → String) (r : α) (xs : List α) :
    (Storage.upsert key r xs).length ≤ xs.length + 1 := by
  unfold Storage.upsert
  split <;> simp

theorem createPerson_people (data : PersonData) (w : World) :
    (createPerson_ data w).2.people = Storage.upsert Person.id (createPerson_ data w).1 w.people ∧
      (createPerson_ data w).1.email = strOr data.email "" := by
  simp [createPerson_, generateId_, newDate, Storage.savePerson]

theorem strOr_some_self (email : String) : strOr (some email) "" = email := by
  unfold strOr
  by_cases h : email = ""
  · simp [h]
  · simp [h]

theorem findOrCreatePerson_found (email : String) (name : Option String) (w : World)
    (person : Person)
    (h : (Storage.getPeople w).find? (fun p => p.email == email) = some person) :
    findOrCreatePerson_ email name w = (person, w) := by
  simp only [findOrCreatePerson_, h]

theorem findOrCreatePerson_find (email : String) (name : Option String) (w : World) :
    (Storage.getPeople (findOrCreatePerson_ email name w).2).find?
        (fun p => p.email == email) = some (findOrCreatePerson_ email name w).1 := by
  cases hfind : (Storage.getPeople w).find? (fun p => p.email == email) with
  | some person =>
    rw [findOrCreatePerson_found email name w person hfind]
    exact hfind
  | none =>
    have hdef : findOrCreatePerson_ email name w =
        createPerson_ { email := some email, name := some (strOr name email) } w := by
      simp only [findOrCreatePerson_, hfind]
    rw [hdef]
    obtain ⟨hpeople, hemail⟩ :=
      createPerson_people { email := some email, name := some (strOr name email) } w
    simp only [strOr_some_self] at hemail
    generalize createPerson_ { email := some email, name := some (strOr name email) } w = r
      at hpeople hemail
    have hmem : r.1 ∈ r.2.people := by
      have hl := Storage.lookup_upsert_self Person.id r.1 w.people
      rw [← hpeople] at hl
      exact (Storage.lookup_some_key Person.id _ _ _ hl).2
    have hex : ∃ q, (Storage.getPeople r.2).find? (fun p => p.email == email) = some q := by
      cases hq : (Storage.getPeople r.2).find? (fun p => p.email == email) with
      | some q => exact ⟨q, rfl⟩
      | none =>
        rw [List.find?_eq_none] at hq
        have := hq r.1 hmem
        simp [hemail] at this
    obtain ⟨q, hq⟩ := hex
    rw [hq]
    have hqmem : q ∈ r.2.people := List.mem_of_find?_eq_some hq
    have hqemail : q.email = email := by simpa using List.find?_some hq
    rw [hpeople] at hqmem
    rcases Storage.mem_upsert Person.id r.1 q w.people hqmem with heq | hold
    · rw [heq]
    · exfalso
      rw [List.find?_eq_none] at hfind
      have := hfind q hold
      simp [hqemail] at this

/-- C7: two calls of `findOrCreatePerson_` in a row with the same email return
the same person, hence the same id, the second call leaves the stored people
unchanged, and after both calls the store has at most one more person than
before the first. -/
theorem findOrCreatePerson_twice (email : String) (name1 name2 : Option String) (w : World) :
    (findOrCreatePerson_ email name2 (findOrCreatePerson_ email name1 w).2).1.id =
        (findOrCreatePerson_ email name1 w).1.id ∧
      (findOrCreatePerson_ email name2 (findOrCreatePerson_ email name1 w).2).2.people =
        (findOrCreatePerson_ email name1 w).2.people ∧
      (findOrCreatePerson_ email name2 (findOrCreatePerson_ email name1 w).2).2.people.length ≤
        w.people.length + 1 := by
  have h2 := findOrCreatePerson_found email name2 _ _ (findOrCreatePerson_find email name1 w)
  rw [h2]
  refine ⟨rfl, rfl, ?_⟩
  cases hfind : (Storage.getPeople w).find? (fun p => p.email == email) with
  | some person =>
    rw [findOrCreatePerson_found email name1 w person hfind]
    exact Nat.le_succ _
  | none =>
    have hdef : findOrCreatePerson_ email name1 w =
        createPerson_ { email := some email, name := some (strOr name1 email) } w := by
      simp only [findOrCreatePerson_, hfind]
    rw [hdef, (createPerson_people _ w).1]
    exact Storage.length_upsert_le _ _ _

theorem findOrCreatePerson_example :
    (findOrCreatePerson_ "b@x.com" none demoWorld).1.id = "u" ∧
      (findOrCreatePerson_ "b@x.com" none
        (findOrCreatePerson_ "b@x.com" none demoWorld).2).1.id = "u" ∧
      (findOrCreatePerson_ "b@x.com" none
        (findOrCreatePerson_ "b@x.com" none demoWorld).2).2.people.map Person.id = ["a", "u"] := by
  decide

/-! ## Updates: not found, or merge -/

theorem updateStep_notFound (stepId : String) (data : StepData) (w : World)
    (h : Storage.getStep w stepId = none) :
    updateStep_ stepId data w = (.error "Step not found", w) := by
  simp only [updateStep_, h]

theorem updateProject_notFound (projectId : String) (data : ProjectData) (w : World)
    (h : Storage.getProject w projectId = none) :
    updateProject_ projectId data w = (.error "Project not found", w) := by
  simp only [updateProject_, h]

theorem updateProject_ok (projectId : String) (data : ProjectData) (w : World)
    (project : Project) (h : Storage.getProject w projectId = some project) :
    updateProject_ projectId data w =
      (.ok (mergeProject project data projectId (w.clock w.clockCalls)),
        Storage.saveProject (mergeProject project data projectId (w.clock w.clockCalls))
          (newDate w).2) := by
  simp [updateProject_, h, newDate]

theorem getProject_saveProject (p : Project) (w : World) :
    Storage.getProject (Storage.saveProject p w) p.id = some p := by
  simp only [Storage.getProject, Storage.saveProject]
  exact Storage.lookup_upsert_self Project.id p w.projects

/-- C8: `updateStep_` and `updateProject_` fail with their not-found error
exactly when no record with the given id is stored, and then leave the world
unchanged; when the record exists, the call succeeds, the returned record is
the one stored under the id afterwards, its id is the given id whatever id
`data` carries, and every other field except updatedAt has the value of `data`
when `data` supplies the key and the value of the existing record otherwise. -/
theorem update_notFound_or_merge (id : String) (sdata : StepData) (pdata : ProjectData)
    (w : World) :
    (((updateStep_ id sdata w).1 = .error "Step not found" ↔ ∀ s ∈ w.steps, s.id ≠ id) ∧
      ((∀ s ∈ w.steps, s.id ≠ id) → (updateStep_ id sdata w).2 = w) ∧
      (∀ step, Storage.getStep w id = some step →
        ∃ u, (updateStep_ id sdata w).1 = .ok u ∧
          Storage.getStep (updateStep_ id sdata w).2 id = some u ∧
          u.id = id ∧
          u.projectId = (sdata.projectId <|> step.projectId) ∧
          u.phase = (sdata.phase <|> step.phase) ∧
          u.name = sdata.name.getD step.name ∧
          u.dueDate = sdata.dueDate.getD step.dueDate ∧
          u.assigneeIds = sdata.assigneeIds.getD step.assigneeIds ∧
          u.status = sdata.status.getD step.status ∧
          u.notes = sdata.notes.getD step.notes ∧
          u.linkedCalendarEventId =
            sdata.linkedCalendarEventId.getD step.linkedCalendarEventId ∧
          u.linkedDriveFileIds = sdata.linkedDriveFileIds.getD step.linkedDriveFileIds ∧
          u.createdAt = sdata.createdAt.getD step.createdAt)) ∧
    (((updateProject_ id pdata w).1 = .error "Project not found" ↔
        ∀ p ∈ w.projects, p.id ≠ id) ∧
      ((∀ p ∈ w.projects, p.id ≠ id) → (updateProject_ id pdata w).2 = w) ∧
      (∀ project, Storage.getProject w id = some project →
        ∃ u, (updateProject_ id pdata w).1 = .ok u ∧
          Storage.getProject (updateProject_ id pdata w).2 id = some u ∧
          u.id = id ∧
          u.title = pdata.title.getD project.title ∧
          u.status = pdata.status.getD project.status ∧
          u.priority = pdata.priority.getD project.priority ∧
          u.startDate = pdata.startDate.getD project.startDate ∧
          u.dueDate = pdata.dueDate.getD project.dueDate ∧
          u.producerId = pdata.producerId.getD project.producerId ∧
          u.directorId = pdata.directorId.getD project.directorId ∧
          u.lineProducerId = pdata.lineProducerId.getD project.lineProducerId ∧
          u.createdAt = pdata.createdAt.getD project.createdAt)) := by
  refine ⟨⟨?_, ?_, ?_⟩, ⟨?_, ?_, ?_⟩⟩
  · rw [← Storage.lookup_eq_none_iff Step.id id w.steps]
    constructor
    · intro herr
      cases hget : Storage.getStep w id with
      | none => exact hget
      | some step =>
        rw [updateStep_ok id sdata w step hget] at herr
        cases herr
    · intro hnone
      rw [updateStep_notFound id sdata w hnone]
  · intro hnone
    rw [← Storage.lookup_eq_none_iff Step.id id w.steps] at hnone
    rw [updateStep_notFound id sdata w hnone]
  · intro step hget
    rw [updateStep_ok id sdata w step hget]
    refine ⟨_, rfl, ?_, rfl, ?_, ?_, rfl, rfl, rfl, rfl, rfl, rfl, rfl, rfl⟩
    · exact getStep_saveStep (mergeStep step sdata id (w.clock w.clockCalls)) (newDate w).2
    · cases hpid : sdata.projectId <;> simp [mergeStep, hpid]
    · cases hph : sdata.phase <;> simp [mergeStep, hph]
  · rw [← Storage.lookup_eq_none_iff Project.id id w.projects]
    constructor
    · intro herr
      cases hget : Storage.getProject w id with
      | none => exact hget
      | some project =>
        rw [updateProject_ok id pdata w project hget] at herr
        cases herr
    · intro hnone
      rw [updateProject_notFound id pdata w hnone]
  · intro hnone
    rw [← Storage.lookup_eq_none_iff Project.id id w.projects] at hnone
    rw [updateProject_notFound id pdata w hnone]
  · intro project hget
    rw [updateProject_ok id pdata w project hget]
    refine ⟨_, rfl, ?_, rfl, rfl, rfl, rfl, rfl, rfl, rfl, rfl, rfl, rfl⟩
    exact getProject_saveProject (mergeProject project pdata id (w.clock w.clockCalls))
      (newDate w).2

theorem updateStep_example :
    ∃ u w1, updateStep_ "s1" { id := some "other", status := some "Done" } demoWorld = (.ok u, w1) ∧
      u.id = "s1" ∧ u.status = "Done" ∧ u.name = "Shooting Day(s)" ∧
      w1.steps.map Step.id = ["s1"] ∧
      (updateStep_ "zz" { status := some "Done" } demoWorld).1 = .error "Step not found" :=
  ⟨_, _, rfl, rfl, rfl, rfl, by decide, rfl⟩

/-! ## Assignees -/

theorem addAssigneeToStep_ok (stepId personId : String) (w : World) (step : Step)
    (h : Storage.getStep w stepId = some step) :
    addAssigneeToStep_ stepId personId w =
      updateStep_ stepId
        { assigneeIds := some (if !step.assigneeIds.contains personId
            then step.assigneeIds ++ [personId] else step.assigneeIds) } w := by
  simp only [addAssigneeToStep_, h]

theorem added_contains (ids : List String) (personId : String) :
    (if !ids.contains personId then ids ++ [personId] else ids).contains personId = true := by
  by_cases h : personId ∈ ids
  · simp [h]
  · simp [h]

theorem added_count (ids : List String) (personId : String) (h : ids.Nodup) :
    (if !ids.contains personId then ids ++ [personId] else ids).count personId = 1 := by
  by_cases hc : personId ∈ ids
  · simp [hc, List.count_eq_one_of_mem h hc]
  · simp [hc, List.count_eq_zero_of_not_mem hc]

theorem added_nodup (ids : List String) (personId : String) (h : ids.Nodup) :
    (if !ids.contains personId then ids ++ [personId] else ids).Nodup := by
  by_cases hc : personId ∈ ids
  · simpa [hc] using h
  · have hif : (if !ids.contains personId then ids ++ [personId] else ids) =
        ids ++ [personId] := by simp [hc]
    rw [hif, List.nodup_append]
    refine ⟨h, List.nodup_singleton _, ?_⟩
    intro a ha hb
    rw [List.mem_singleton] at hb
    rw [hb] at ha
    exact hc ha

/-- C9: on a stored step whose assigneeIds has no duplicates, two calls of
`addAssigneeToStep_` with the same personId both succeed, the second returns
and stores the same assigneeIds as the first, and these contain personId
exactly once. -/
theorem addAssigneeToStep_idempotent (stepId personId : String) (w : World) (step : Step)
    (hget : Storage.getStep w stepId = some step) (hnodup : step.assigneeIds.Nodup) :
    ∃ s1 w1 s2 w2,
      addAssigneeToStep_ stepId personId w = (.ok s1, w1) ∧
      addAssigneeToStep_ stepId personId w1 = (.ok s2, w2) ∧
      Storage.getStep w1 stepId = some s1 ∧
      Storage.getStep w2 stepId = some s2 ∧
      s2.assigneeIds = s1.assigneeIds ∧
      s1.assigneeIds.count personId = 1 := by
  obtain ⟨w1, hok1, hget1⟩ := updateStep_stored stepId
    { assigneeIds := some (if !step.assigneeIds.contains personId
        then step.assigneeIds ++ [personId] else step.assigneeIds) } w step hget
  rw [← addAssigneeToStep_ok stepId personId w step hget] at hok1
  obtain ⟨w2, hok2, hget2⟩ := updateStep_stored stepId
    { assigneeIds := some
        (if !(mergeStep step
              { assigneeIds := some (if !step.assigneeIds.contains personId
                  then step.assigneeIds ++ [personId] else step.assigneeIds) }
              stepId (w.clock w.clockCalls)).assigneeIds.contains personId
          then (mergeStep step
              { assigneeIds := some (if !step.assigneeIds.contains personId
                  then step.assigneeIds ++ [personId] else step.assigneeIds) }
              stepId (w.clock w.clockCalls)).assigneeIds ++ [personId]
          else (mergeStep step
              { assigneeIds := some (if !step.assigneeIds.contains personId
                  then step.assigneeIds ++ [personId] else step.assigneeIds) }
              stepId (w.clock w.clockCalls)).assigneeIds) } w1 _ hget1
  rw [← addAssigneeToStep_ok stepId personId w1 _ hget1] at hok2
  refine ⟨_, w1, _, w2, hok1, hok2, hget1, hget2, ?_, ?_⟩
  · have hc := added_contains step.assigneeIds personId
    simp only [mergeStep, Option.getD_some]
    rw [hc]
    simp
  · simp only [mergeStep, Option.getD_some]
    exact added_count step.assigneeIds personId hnodup

/-- Witness of C9 on the example world, adding a new person to step `s1`. -/
theorem addAssigneeToStep_idempotent_witness :
    ∃ s1 w1 s2 w2,
      addAssigneeToStep_ "s1" "b" demoWorld = (.ok s1, w1) ∧
      addAssigneeToStep_ "s1" "b" w1 = (.ok s2, w2) ∧
      Storage.getStep w1 "s1" = some s1 ∧
      Storage.getStep w2 "s1" = some s2 ∧
      s2.assigneeIds = s1.assigneeIds ∧
      s1.assigneeIds.count "b" = 1 :=
  addAssigneeToStep_idempotent "s1" "b" demoWorld demoStep (by decide) (by decide)

theorem addAssigneeToStep_example :
    ∃ s1 w1 s2 w2,
      addAssigneeToStep_ "s1" "b" demoWorld = (.ok s1, w1) ∧
      addAssigneeToStep_ "s1" "b" w1 = (.ok s2, w2) ∧
      s1.assigneeIds = ["a", "b"] ∧ s2.assigneeIds = ["a", "b"] :=
  ⟨_, _, _, _, rfl, rfl, rfl, rfl⟩

/-! ## The assigneeIds of stored steps -/

theorem AssigneesAreSets_saveStep (s : Step) (w w1 : World) (hsteps : w1.steps = w.steps)
    (hinv : AssigneesAreSets w) (hs : s.assigneeIds.Nodup) :
    AssigneesAreSets (Storage.saveStep s w1) := by
  intro x hx
  simp only [Storage.saveStep, hsteps] at hx
  rcases Storage.mem_upsert Step.id s x w.steps hx with heq | hold
  · rw [heq]; exact hs
  · exact hinv x hold

theorem AssigneesAreSets_updateStep (stepId : String) (data : StepData) (w : World)
    (hinv : AssigneesAreSets w)
    (hdata : ∀ step, Storage.getStep w stepId = some step →
      (data.assigneeIds.getD step.assigneeIds).Nodup) :
    AssigneesAreSets (updateStep_ stepId data w).2 := by
  cases hget : Storage.getStep w stepId with
  | none =>
    rw [updateStep_notFound stepId data w hget]
    exact hinv
  | some step =>
    rw [updateStep_ok stepId data w step hget]
    exact AssigneesAreSets_saveStep _ w _ rfl hinv (hdata step hget)

theorem getStep_nodup (stepId : String) (w : World) (step : Step)
    (hinv : AssigneesAreSets w) (hget : Storage.getStep w stepId = some step) :
    step.assigneeIds.Nodup :=
  hinv step (Storage.lookup_some_key Step.id stepId w.steps step hget).2

/-- C10 (as stated, refuted): `assignPeopleToStep_` and `createStep_` store the
array they are given: on a store where every assigneeIds is a set, the
argument `["a", "a"]` leaves a stored step whose assigneeIds holds `a` twice. -/
theorem assigneeIds_duplicates_counterexample :
    AssigneesAreSets demoWorld ∧
      (∃ s w1, assignPeopleToStep_ "s1" ["a", "a"] demoWorld = (.ok s, w1) ∧
        Storage.getStep w1 "s1" = some s ∧ s.assigneeIds = ["a", "a"] ∧
        ¬ AssigneesAreSets w1) ∧
      ¬ AssigneesAreSets (createStep_ { assigneeIds := some ["a", "a"] } demoWorld).2 := by
  exact ⟨by decide, ⟨_, _, rfl, by decide, rfl, by decide⟩, by decide⟩

/-- C10 (amended): on a store where the assigneeIds of every step is a set,
this still holds after `createStep_` and `updateStep_` when the assigneeIds of
`data`, if supplied, has no duplicates, after `assignPeopleToStep_` when
personIds has no duplicates, and after `addAssigneeToStep_`,
`removeAssigneeFromStep_` and `toggleStepStatus_` for every argument; the step
made by `createStep_` then has a set of assigneeIds. -/
theorem assigneeIds_set_preserved (w : World) (hinv : AssigneesAreSets w) :
    (∀ data : StepData, (listOr data.assigneeIds).Nodup →
        (createStep_ data w).1.assigneeIds.Nodup ∧ AssigneesAreSets (createStep_ data w).2) ∧
      (∀ (stepId : String) (data : StepData),
        (∀ ids, data.assigneeIds = some ids → ids.Nodup) →
          AssigneesAreSets (updateStep_ stepId data w).2) ∧
      (∀ (stepId : String) (personIds : List String), personIds.Nodup →
        AssigneesAreSets (assignPeopleToStep_ stepId personIds w).2) ∧
      (∀ stepId personId : String,
        AssigneesAreSets (addAssigneeToStep_ stepId personId w).2) ∧
      (∀ stepId personId : String,
        AssigneesAreSets (removeAssigneeFromStep_ stepId personId w).2) ∧
      (∀ stepId : String, AssigneesAreSets (toggleStepStatus_ stepId w).2) := by
  refine ⟨?_, ?_, ?_, ?_, ?_, ?_⟩
  · intro data hdata
    have hstep : (createStep_ data w).1.assigneeIds = listOr data.assigneeIds := by
      simp [createStep_, generateId_, newDate]
    have hworld : (createStep_ data w).2 =
        Storage.saveStep (createStep_ data w).1
          (newDate (newDate (generateId_ w).2).2).2 := by
      simp [createStep_, generateId_, newDate]
    refine ⟨by rw [hstep]; exact hdata, ?_⟩
    rw [hworld]
    exact AssigneesAreSets_saveStep _ w _ rfl hinv (by rw [hstep]; exact hdata)
  · intro stepId data hdata
    apply AssigneesAreSets_updateStep stepId data w hinv
    intro step hget
    cases hids : data.assigneeIds with
    | none => exact getStep_nodup stepId w step hinv hget
    | some ids => exact hdata ids hids
  · intro stepId personIds hnodup
    apply AssigneesAreSets_updateStep stepId _ w hinv
    intro step _
    exact hnodup
  · intro stepId personId
    cases hget : Storage.getStep w stepId with
    | none =>
      have hdef : addAssigneeToStep_ stepId personId w = (.error "Step not found", w) := by
        simp only [addAssigneeToStep_, hget]
      rw [hdef]
      exact hinv
    | some step =>
      rw [addAssigneeToStep_ok stepId personId w step hget]
      apply AssigneesAreSets_updateStep stepId _ w hinv
      intro step2 _
      exact added_nodup step.assigneeIds personId (getStep_nodup stepId w step hinv hget)
  · intro stepId personId
    cases hget : Storage.getStep w stepId with
    | none =>
      have hdef : removeAssigneeFromStep_ stepId personId w = (.error "Step not found", w) := by
        simp only [removeAssigneeFromStep_, hget]
      rw [hdef]
      exact hinv
    | some step =>
      have hdef : removeAssigneeFromStep_ stepId personId w =
          updateStep_ stepId
            { assigneeIds := some (step.assigneeIds.filter (fun id => id != personId)) } w := by
        simp only [removeAssigneeFromStep_, hget]
      rw [hdef]
      apply AssigneesAreSets_updateStep stepId _ w hinv
      intro step2 _
      exact (getStep_nodup stepId w step hinv hget).filter _
  · intro stepId
    cases hget : Storage.getStep w stepId with
    | none =>
      have hdef : toggleStepStatus_ stepId w = (.error "Step not found", w) := by
        simp only [toggleStepStatus_, hget]
      rw [hdef]
      exact hinv
    | some step =>
      have hdef : toggleStepStatus_ stepId w =
          updateStep_ stepId { status := some (nextStatus step.status) } w := by
        simp only [toggleStepStatus_, hget]
      rw [hdef]
      apply AssigneesAreSets_updateStep stepId _ w hinv
      intro step2 hget2
      exact getStep_nodup stepId w step2 hinv hget2

/-- Witness of C10 (amended): every assigneeIds of the example world is a set,
and stays one under each of the six operations. -/
theorem assigneeIds_set_preserved_witness :
    AssigneesAreSets demoWorld ∧
      AssigneesAreSets (createStep_ { assigneeIds := some ["a", "b"] } demoWorld).2 ∧
      AssigneesAreSets (updateStep_ "s1" { assigneeIds := some ["b"] } demoWorld).2 ∧
      AssigneesAreSets (assignPeopleToStep_ "s1" ["b", "c"] demoWorld).2 ∧
      AssigneesAreSets (addAssigneeToStep_ "s1" "a" demoWorld).2 ∧
      AssigneesAreSets (removeAssigneeFromStep_ "s1" "a" demoWorld).2 ∧
      AssigneesAreSets (toggleStepStatus_ "s1" demoWorld).2 :=
  have hinv : AssigneesAreSets demoWorld := by decide
  ⟨hinv,
    ((assigneeIds_set_preserved demoWorld hinv).1 { assigneeIds := some ["a", "b"] }
      (by decide)).2,
    (assigneeIds_set_preserved demoWorld hinv).2.1 "s1" { assigneeIds := some ["b"] }
      (by intro ids h; cases h; decide),
    (assigneeIds_set_preserved demoWorld hinv).2.2.1 "s1" ["b", "c"] (by decide),
    (assigneeIds_set_preserved demoWorld hinv).2.2.2.1 "s1" "a",
    (assigneeIds_set_preserved demoWorld hinv).2.2.2.2.1 "s1" "a",
    (assigneeIds_set_preserved demoWorld hinv).2.2.2.2.2 "s1"⟩

/-! ## The status cycle -/

theorem toggleStepStatus_stored (stepId : String) (w : World) (step : Step)
    (h : Storage.getStep w stepId = some step) :
    ∃ s1 w1, toggleStepStatus_ stepId w = (.ok s1, w1) ∧
      Storage.getStep w1 stepId = some s1 ∧ s1.status = nextStatus step.status := by
  obtain ⟨w1, hok, hget⟩ :=
    updateStep_stored stepId { status := some (nextStatus step.status) } w step h
  refine ⟨_, w1, ?_, hget, ?_⟩
  · simp only [toggleStepStatus_, h]
    exact hok
  · simp only [mergeStep, Option.getD_some]

theorem nextStatus_cycle (status : String)
    (h : status = "Open" ∨ status = "In Progress" ∨ status = "Done") :
    nextStatus (nextStatus (nextStatus status)) = status ∧
      nextStatus status ≠ status ∧ nextStatus (nextStatus status) ≠ status := by
  rcases h with h | h | h <;> subst h <;> decide

/-- C11: on a stored step whose status is `Open`, `In Progress` or `Done`,
three calls of `toggleStepStatus_` in a row all succeed and the step returned
and stored by the third has the original status, while the step returned by
the first call and the step returned by the second call have a status
different from the original. -/
theorem toggleStepStatus_three_cycle (stepId : String) (w : World) (step : Step)
    (hget : Storage.getStep w stepId = some step)
    (hknown : step.status = "Open" ∨ step.status = "In Progress" ∨ step.status = "Done") :
    ∃ s1 w1 s2 w2 s3 w3,
      toggleStepStatus_ stepId w = (.ok s1, w1) ∧
      toggleStepStatus_ stepId w1 = (.ok s2, w2) ∧
      toggleStepStatus_ stepId w2 = (.ok s3, w3) ∧
      Storage.getStep w3 stepId = some s3 ∧
      s3.status = step.status ∧
      s1.status ≠ step.status ∧
      s2.status ≠ step.status := by
  obtain ⟨s1, w1, hok1, hget1, hs1⟩ := toggleStepStatus_stored stepId w step hget
  obtain ⟨s2, w2, hok2, hget2, hs2⟩ := toggleStepStatus_stored stepId w1 s1 hget1
  obtain ⟨s3, w3, hok3, hget3, hs3⟩ := toggleStepStatus_stored stepId w2 s2 hget2
  obtain ⟨h3, h1, h2⟩ := nextStatus_cycle step.status hknown
  refine ⟨s1, w1, s2, w2, s3, w3, hok1, hok2, hok3, hget3, ?_, ?_, ?_⟩
  · rw [hs3, hs2, hs1]; exact h3
  · rw [hs1]; exact h1
  · rw [hs2, hs1]; exact h2

/-- Witness of C11: the step `s1` of the example world has status `Open`. -/
theorem toggleStepStatus_three_cycle_witness :
    ∃ s1 w1 s2 w2 s3 w3,
      toggleStepStatus_ "s1" demoWorld = (.ok s1, w1) ∧
      toggleStepStatus_ "s1" w1 = (.ok s2, w2) ∧
      toggleStepStatus_ "s1" w2 = (.ok s3, w3) ∧
      Storage.getStep w3 "s1" = some s3 ∧
      s3.status = demoStep.status ∧
      s1.status ≠ demoStep.status ∧
      s2.status ≠ demoStep.status :=
  toggleStepStatus_three_cycle "s1" demoWorld demoStep (by decide) (Or.inl (by decide))

theorem toggleStepStatus_example :
    ∃ s1 w1 s2 w2 s3 w3,
      toggleStepStatus_ "s1" demoWorld = (.ok s1, w1) ∧
      toggleStepStatus_ "s1" w1 = (.ok s2, w2) ∧
      toggleStepStatus_ "s1" w2 = (.ok s3, w3) ∧
      s1.status = "In Progress" ∧ s2.status = "Done" ∧ s3.status = "Open" :=
  ⟨_, _, _, _, _, _, rfl, rfl, rfl, rfl, rfl, rfl⟩

/-! ## Removing and adding assignees -/

theorem addAssigneeToStep_stored (stepId personId : String) (w : World) (step : Step)
    (h : Storage.getStep w stepId = some step) :
    ∃ s1 w1, addAssigneeToStep_ stepId personId w = (.ok s1, w1) ∧
      Storage.getStep w1 stepId = some s1 ∧
      s1.assigneeIds =
        (if !step.assigneeIds.contains personId then step.assigneeIds ++ [personId]
          else step.assigneeIds) := by
  obtain ⟨w1, hok, hget⟩ := updateStep_stored stepId
    { assigneeIds := some (if !step.assigneeIds.contains personId
        then step.assigneeIds ++ [personId] else step.assigneeIds) } w step h
  rw [← addAssigneeToStep_ok stepId personId w step h] at hok
  refine ⟨_, w1, hok, hget, ?_⟩
  simp only [mergeStep, Option.getD_some]

theorem removeAssigneeFromStep_stored (stepId personId : String) (w : World) (step : Step)
    (h : Storage.getStep w stepId = some step) :
    ∃ s1 w1, removeAssigneeFromStep_ stepId personId w = (.ok s1, w1) ∧
      Storage.getStep w1 stepId = some s1 ∧
      s1.assigneeIds = step.assigneeIds.filter (fun id => id != personId) := by
  obtain ⟨w1, hok, hget⟩ := updateStep_stored stepId
    { assigneeIds := some (step.assigneeIds.filter (fun id => id != personId)) } w step h
  refine ⟨_, w1, ?_, hget, ?_⟩
  · simp only [removeAssigneeFromStep_, h]
    exact hok
  · simp only [mergeStep, Option.getD_some]

theorem added_mem (ids : List String) (personId q : String) :
    q ∈ (if !ids.contains personId then ids ++ [personId] else ids) ↔
      q ∈ ids ∨ q = personId := by
  by_cases hc : personId ∈ ids
  · have hif : (if !ids.contains personId then ids ++ [personId] else ids) = ids := by
      simp [hc]
    rw [hif]
    constructor
    · intro hq; exact Or.inl hq
    · intro hq
      rcases hq with hq | hq
      · exact hq
      · rw [hq]; exact hc
  · have hif : (if !ids.contains personId then ids ++ [personId] else ids) =
        ids ++ [personId] := by simp [hc]
    rw [hif, List.mem_append, List.mem_singleton]

theorem removed_mem (ids : List String) (personId q : String) :
    q ∈ ids.filter (fun id => id != personId) ↔ q ∈ ids ∧ q ≠ personId := by
  rw [List.mem_filter]
  simp

theorem removed_count (ids : List String) (personId q : String) (h : q ≠ personId) :
    (ids.filter (fun id => id != personId)).count q = ids.count q := by
  induction ids with
  | nil => rfl
  | cons x rest ih =>
    by_cases hx : x = personId
    · have hxq : x ≠ q := by rw [hx]; exact fun e => h e.symm
      have hf : (x :: rest).filter (fun id => id != personId) =
          rest.filter (fun id => id != personId) := by simp [hx]
      rw [hf, ih, List.count_cons]
      simp [hxq]
    · have hf : (x :: rest).filter (fun id => id != personId) =
          x :: rest.filter (fun id => id != personId) := by simp [hx]
      rw [hf, List.count_cons, List.count_cons, ih]

/-- C12: on a stored step, `removeAssigneeFromStep_` succeeds and leaves no
occurrence of personId in the stored assigneeIds while every other id keeps
its occurrences; a following `addAssigneeToStep_` for the same personId
succeeds and stores assigneeIds that contain personId and have the same other
members as before the removal; and for two ids `a` and `b`, distinct or not,
adding `a` then `b` and adding `b` then `a` store assigneeIds with the same
members. -/
theorem removeAssignee_then_add (stepId personId a b : String) (w : World) (step : Step)
    (hget : Storage.getStep w stepId = some step) :
    (∃ s1 w1 s2 w2,
      removeAssigneeFromStep_ stepId personId w = (.ok s1, w1) ∧
      Storage.getStep w1 stepId = some s1 ∧
      personId ∉ s1.assigneeIds ∧
      (∀ q, q ≠ personId → s1.assigneeIds.count q = step.assigneeIds.count q) ∧
      (∀ q, q ≠ personId → (q ∈ s1.assigneeIds ↔ q ∈ step.assigneeIds)) ∧
      addAssigneeToStep_ stepId personId w1 = (.ok s2, w2) ∧
      Storage.getStep w2 stepId = some s2 ∧
      personId ∈ s2.assigneeIds ∧
      (∀ q, q ≠ personId → (q ∈ s2.assigneeIds ↔ q ∈ step.assigneeIds))) ∧
    (∃ sa wa sab wab sb wb sba wba,
      addAssigneeToStep_ stepId a w = (.ok sa, wa) ∧
      addAssigneeToStep_ stepId b wa = (.ok sab, wab) ∧
      addAssigneeToStep_ stepId b w = (.ok sb, wb) ∧
      addAssigneeToStep_ stepId a wb = (.ok sba, wba) ∧
      Storage.getStep wab stepId = some sab ∧
      Storage.getStep wba stepId = some sba ∧
      ∀ q, q ∈ sab.assigneeIds ↔ q ∈ sba.assigneeIds) := by
  constructor
  · obtain ⟨s1, w1, hok1, hget1, hids1⟩ :=
      removeAssigneeFromStep_stored stepId personId w step hget
    obtain ⟨s2, w2, hok2, hget2, hids2⟩ :=
      addAssigneeToStep_stored stepId personId w1 s1 hget1
    have hmem1 : ∀ q, q ≠ personId → (q ∈ s1.assigneeIds ↔ q ∈ step.assigneeIds) := by
      intro q hq
      rw [hids1, removed_mem]
      exact ⟨fun h => h.1, fun h => ⟨h, hq⟩⟩
    refine ⟨s1, w1, s2, w2, hok1, hget1, ?_, ?_, hmem1, hok2, hget2, ?_, ?_⟩
    · rw [hids1, removed_mem]
      exact fun h => h.2 rfl
    · intro q hq
      rw [hids1]
      exact removed_count step.assigneeIds personId q hq
    · rw [hids2, added_mem]
      exact Or.inr rfl
    · intro q hq
      rw [hids2, added_mem, ← hmem1 q hq]
      exact ⟨fun h => h.resolve_right hq, fun h => Or.inl h⟩
  · obtain ⟨sa, wa, hoka, hgeta, hidsa⟩ := addAssigneeToStep_stored stepId a w step hget
    obtain ⟨sab, wab, hokab, hgetab, hidsab⟩ := addAssigneeToStep_stored stepId b wa sa hgeta
    obtain ⟨sb, wb, hokb, hgetb, hidsb⟩ := addAssigneeToStep_stored stepId b w step hget
    obtain ⟨sba, wba, hokba, hgetba, hidsba⟩ := addAssigneeToStep_stored stepId a wb sb hgetb
    refine ⟨sa, wa, sab, wab, sb, wb, sba, wba, hoka, hokab, hokb, hokba, hgetab, hgetba,
      ?_⟩
    intro q
    rw [hidsab, hidsba, added_mem, added_mem, hidsa, hidsb, added_mem, added_mem]
    constructor
    · rintro ((h | h) | h)
      · exact Or.inl (Or.inl h)
      · exact Or.inr h
      · exact Or.inl (Or.inr h)
    · rintro ((h | h) | h)
      · exact Or.inl (Or.inl h)
      · exact Or.inr h
      · exact Or.inl (Or.inr h)

/-- Witness of C12: on the step `s1` of the example world, whose assigneeIds is
`["a"]`, remove and add `a`, and add `b` and `c` in both orders. -/
theorem removeAssignee_then_add_witness :
    (∃ s1 w1 s2 w2,
      removeAssigneeFromStep_ "s1" "a" demoWorld = (.ok s1, w1) ∧
      Storage.getStep w1 "s1" = some s1 ∧
      "a" ∉ s1.assigneeIds ∧
      (∀ q, q ≠ "a" → s1.assigneeIds.count q = demoStep.assigneeIds.count q) ∧
      (∀ q, q ≠ "a" → (q ∈ s1.assigneeIds ↔ q ∈ demoStep.assigneeIds)) ∧
      addAssigneeToStep_ "s1" "a" w1 = (.ok s2, w2) ∧
      Storage.getStep w2 "s1" = some s2 ∧
      "a" ∈ s2.assigneeIds ∧
      (∀ q, q ≠ "a" → (q ∈ s2.assigneeIds ↔ q ∈ demoStep.assigneeIds))) ∧
    (∃ sa wa sab wab sb wb sba wba,
      addAssigneeToStep_ "s1" "b" demoWorld = (.ok sa, wa) ∧
      addAssigneeToStep_ "s1" "c" wa = (.ok sab, wab) ∧
      addAssigneeToStep_ "s1" "c" demoWorld = (.ok sb, wb) ∧
      addAssigneeToStep_ "s1" "b" wb = (.ok sba, wba) ∧
      Storage.getStep wab "s1" = some sab ∧
      Storage.getStep wba "s1" = some sba ∧
      ∀ q, q ∈ sab.assigneeIds ↔ q ∈ sba.assigneeIds) :=
  removeAssignee_then_add "s1" "a" "b" "c" demoWorld demoStep (by decide)

theorem removeAssignee_then_add_example :
    ∃ s1 w1 s2 w2 sa wa sab wab sb wb sba wba,
      removeAssigneeFromStep_ "s1" "a" demoWorld = (.ok s1, w1) ∧
      addAssigneeToStep_ "s1" "a" w1 = (.ok s2, w2) ∧
      addAssigneeToStep_ "s1" "b" demoWorld = (.ok sa, wa) ∧
      addAssigneeToStep_ "s1" "c" wa = (.ok sab, wab) ∧
      addAssigneeToStep_ "s1" "c" demoWorld = (.ok sb, wb) ∧
      addAssigneeToStep_ "s1" "b" wb = (.ok sba, wba) ∧
      s1.assigneeIds = [] ∧ s2.assigneeIds = ["a"] ∧
      sab.assigneeIds = ["a", "b", "c"] ∧ sba.assigneeIds = ["a", "c", "b"] :=
  ⟨_, _, _, _, _, _, _, _, _, _, _, _, rfl, rfl, rfl, rfl, rfl, rfl, rfl, rfl, rfl, rfl⟩

end GPM
